import Mathlib

/-!
Shallow embedding of the schema-detection, column-mapping and record-normalization
engine of `flexible_loader.py` (class `FlexibleDataLoader`), together with proofs
about the claims of the specification.

Cell values are modelled by `Value` (a string, a rational number standing for the
numeric cell types, or a missing value `na` standing for NaN/None).  A data frame
is modelled by `Table`: an ordered list of column names plus row-major data.
-/

namespace FlexibleLoader

/-- A cell of a raw or canonical table: text, a number (floats and ints are both
modelled as rationals), or a missing value (NaN / None). -/
inductive Value where
  | str : String → Value
  | num : ℚ → Value
  | na  : Value
deriving DecidableEq

/-- The declared semantic type of a canonical field. -/
inductive FieldType where
  | text : FieldType
  | integer : FieldType
  | real : FieldType
deriving DecidableEq

/-- Whether a cell value conforms to a declared field type. -/
def Value.hasTypeB : Value → FieldType → Bool
  | .str _, .text => true
  | .num q, .integer => q.den = 1
  | .num _, .real => true
  | _, _ => false

/-- `STANDARD_SCHEMA` of `FlexibleDataLoader`: the nine canonical fields in
declaration order with their declared types. -/
def STANDARD_SCHEMA : List (String × FieldType) :=
  [("movie_id", .text),
   ("title", .text),
   ("genres", .text),
   ("release_year", .integer),
   ("runtime", .integer),
   ("rating", .real),
   ("vote_count", .integer),
   ("popularity", .real),
   ("overview", .text)]

/-- The canonical field names, in schema declaration order. -/
def STANDARD_SCHEMA_FIELDS : List String := STANDARD_SCHEMA.map Prod.fst

/-! ### Numeric parsing (`pd.to_numeric(..., errors='coerce')`) -/

/-- Value of a digit list read in base 10. -/
def digitsVal (cs : List Char) : ℕ :=
  cs.foldl (fun a c => a * 10 + (c.toNat - 48)) 0

/-- A nonempty all-digit character list. -/
def allDigits (cs : List Char) : Bool :=
  !cs.isEmpty && cs.all Char.isDigit

/-- Parse a nonempty digit list as a natural number. -/
def parseNatDigits? (cs : List Char) : Option ℕ :=
  if allDigits cs then some (digitsVal cs) else none

/-- Parse a decimal literal (optional sign, integer part, optional fractional
part) as a rational.  This covers the numeric strings `pd.to_numeric` accepts in
the forms used by the data (it does not attempt exponents or leading dots). -/
def parseRat? (s : String) : Option ℚ :=
  let cs := s.toList
  let signed : ℚ × List Char :=
    match cs with
    | c :: rest => if c = '-' then (-1, rest) else if c = '+' then (1, rest) else (1, cs)
    | [] => (1, [])
  let intPart := signed.2.takeWhile (fun c => c ≠ '.')
  let rest := signed.2.dropWhile (fun c => c ≠ '.')
  match rest with
  | [] => (parseNatDigits? intPart).map (fun n => signed.1 * n)
  | _ :: fracPart =>
      match parseNatDigits? intPart, parseNatDigits? fracPart with
      | some i, some f => some (signed.1 * ((i : ℚ) + (f : ℚ) / (10 : ℚ) ^ fracPart.length))
      | _, _ => none

/-- `pd.to_numeric(v, errors='coerce')` on one cell: numbers pass through,
strings are parsed, anything unparseable (and missing input) becomes missing. -/
def toNumericVal : Value → Value
  | .num q => .num q
  | .na => .na
  | .str s => match parseRat? s with
      | some q => .num q
      | none => .na

/-! ### Median (`Series.median()`; NaN values are ignored, mean of two middles) -/

/-- Insert into a sorted list of rationals. -/
def insertSorted (q : ℚ) : List ℚ → List ℚ
  | [] => [q]
  | x :: xs => if q ≤ x then q :: x :: xs else x :: insertSorted q xs

/-- Insertion sort for rationals. -/
def sortRats (l : List ℚ) : List ℚ := l.foldr insertSorted []

/-- Median of a list of rationals: middle of the sorted list, or the mean of the
two middle elements for even length; `none` for the empty list (pandas: NaN). -/
def median (l : List ℚ) : Option ℚ :=
  let s := sortRats l
  let n := s.length
  if n = 0 then none
  else if n % 2 = 1 then s.get? (n / 2)
  else match s.get? (n / 2 - 1), s.get? (n / 2) with
       | some a, some b => some ((a + b) / 2)
       | _, _ => none

/-- The non-missing numeric entries of a column. -/
def nonNullNums (vs : List Value) : List ℚ :=
  vs.filterMap (fun v => match v with | .num q => some q | _ => none)

/-- The value used by `fillna(col.median())`: the column median, or missing when
the column has no non-missing entry (filling with NaN leaves NaN in place). -/
def medValue (vs : List Value) : Value :=
  match median (nonNullNums vs) with
  | some m => .num m
  | none => .na

/-! ### The column transformations of `_validate_and_clean` -/

/-- `pd.to_numeric(col, errors='coerce')` then `fillna(col.median())`. -/
def imputeMedian (vs : List Value) : List Value :=
  let c := vs.map toNumericVal
  c.map (fun v => if v = Value.na then medValue c else v)

/-- `pd.to_numeric(col, errors='coerce')` then `fillna(0)`. -/
def imputeZero (vs : List Value) : List Value :=
  (vs.map toNumericVal).map (fun v => if v = Value.na then Value.num 0 else v)

/-- `pd.to_numeric(col, errors='coerce')` then `astype('Int64')`: parsed values
are cast to (nullable) integers, missing stays missing; no imputation. -/
def yearCoerce (vs : List Value) : List Value :=
  (vs.map toNumericVal).map (fun v =>
    match v with
    | .num q => .num ((⌊q⌋ : ℤ) : ℚ)
    | x => x)

/-- `pd.notna` on one cell. -/
def pandasNotna : Value → Bool
  | .na => false
  | _ => true

/-- `Series.astype(str)` on one cell: NaN is stringified to `"nan"`. -/
def astypeStr : Value → String
  | .str s => s
  | .na => "nan"
  | .num q => toString q

/-- Remove every occurrence of one character (`str.replace(c, '')` for a
single-character pattern). -/
def removeChar (c : Char) (s : String) : String :=
  String.mk (s.toList.filter (fun x => x ≠ c))

/-- The single-quote character, written via its code point. -/
def squoteChar : Char := Char.ofNat 39

/-- `x.replace('[', '').replace(']', '').replace("'", '').strip()`. -/
def stripGenreChars (s : String) : String :=
  (removeChar squoteChar (removeChar ']' (removeChar '[' s))).trim

/-- The genres cell transformation of `_validate_and_clean`:
`astype(str)` runs before the lambda, so the `pd.notna` test always sees a
string and the `'Unknown'` branch of the source can never be taken. -/
def cleanGenres (v : Value) : Value :=
  let s := astypeStr v
  if pandasNotna (Value.str s) then Value.str (stripGenreChars s) else Value.str "Unknown"

/-- `f"MOV{i+1:05d}"`: zero-padded synthesized identifier. -/
def movieIdStr (n : ℕ) : String :=
  let s := toString n
  "MOV" ++ String.mk (List.replicate (5 - s.length) '0') ++ s

/-! ### Tables -/

/-- A data frame: ordered column names plus row-major cell data. -/
structure Table where
  colNames : List String
  rows : List (List Value)
deriving DecidableEq

/-- Well-formedness: every row has one cell per column. -/
def Table.WF (t : Table) : Prop := ∀ r ∈ t.rows, r.length = t.colNames.length

instance (t : Table) : Decidable t.WF := by
  unfold Table.WF; infer_instance

/-- `col in df.columns`. -/
def Table.hasCol (t : Table) (c : String) : Bool := t.colNames.contains c

/-- Position of a column (the length of `colNames` when absent). -/
def Table.colIdx (t : Table) (c : String) : ℕ := t.colNames.indexOf c

/-- Read a column (`df[c]`); out-of-range cells read as missing. -/
def Table.getCol (t : Table) (c : String) : List Value :=
  t.rows.map (fun r => r.getD (t.colIdx c) Value.na)

/-- Overwrite a column in place (`df[c] = series`). -/
def Table.setCol (t : Table) (c : String) (vs : List Value) : Table :=
  { t with rows := List.zipWith (fun r v => r.set (t.colIdx c) v) t.rows vs }

/-- Append a new column (`df[c] = series` for a fresh name). -/
def Table.addCol (t : Table) (c : String) (vs : List Value) : Table :=
  { colNames := t.colNames ++ [c],
    rows := List.zipWith (fun r v => r ++ [v]) t.rows vs }

/-- Keep-first de-duplication of a list by key, given the set of keys already
seen (`DataFrame.drop_duplicates(subset=..., keep='first')`). -/
def dedupByKey {α κ : Type} [DecidableEq κ] (key : α → κ) : List α → List κ → List α
  | [], _ => []
  | r :: rest, seen =>
    if key r ∈ seen then dedupByKey key rest seen
    else r :: dedupByKey key rest (key r :: seen)

/-- The `(title, release_year)` key of a row. -/
def Table.rowKey (t : Table) (r : List Value) : Value × Value :=
  (r.getD (t.colIdx "title") Value.na, r.getD (t.colIdx "release_year") Value.na)

/-- `df.drop_duplicates(subset=['title', 'release_year'], keep='first')`. -/
def Table.dropDuplicatesTitleYear (t : Table) : Table :=
  { t with rows := dedupByKey t.rowKey t.rows [] }

/-! ### Registry data (`SOURCE_MAPPINGS`, `FUZZY_PATTERNS`, detection signatures) -/

/-- `SOURCE_MAPPINGS`: per-source exact column dictionaries, in the declaration
order of the source. -/
def SOURCE_MAPPINGS : List (String × List (String × String)) :=
  [("tmdb",
    [("id", "movie_id"), ("title", "title"), ("genres", "genres"),
     ("release_date", "release_year"), ("runtime", "runtime"),
     ("vote_average", "rating"), ("vote_count", "vote_count"),
     ("popularity", "popularity"), ("overview", "overview")]),
   ("imdb",
    [("tconst", "movie_id"), ("primary_title", "title"), ("original_title", "title"),
     ("genres", "genres"), ("start_year", "release_year"),
     ("runtime_minutes", "runtime"), ("average_rating", "rating"),
     ("num_votes", "vote_count"), ("title_id", "movie_id")]),
   ("movielens",
    [("movieid", "movie_id"), ("movie_id", "movie_id"), ("title", "title"),
     ("genres", "genres"), ("rating", "rating"), ("timestamp", "vote_count")]),
   ("rotten_tomatoes",
    [("id", "movie_id"), ("name", "title"), ("title", "title"),
     ("genre", "genres"), ("genres", "genres"), ("year", "release_year"),
     ("rating", "rating"), ("audience_score", "rating"), ("imdb_rating", "rating")]),
   ("letterboxd",
    [("id", "movie_id"), ("name", "title"), ("year", "release_year"),
     ("genre", "genres"), ("rating", "rating"), ("rating_count", "vote_count"),
     ("description", "overview")]),
   ("kaggle",
    [("movie_id", "movie_id"), ("film_name", "title"), ("movie_name", "title"),
     ("name", "title"), ("genre", "genres"), ("release_year", "release_year"),
     ("year", "release_year"), ("rating", "rating"), ("votes", "vote_count"),
     ("runtime", "runtime")])]

/-- `FUZZY_PATTERNS`: ordered generic name variants per canonical field. -/
def FUZZY_PATTERNS : List (String × List String) :=
  [("movie_id", ["id", "movie_id", "tconst", "imdb_id", "film_id"]),
   ("title", ["title", "name", "film_name", "movie_name", "primary_title", "original_title"]),
   ("genres", ["genre", "genres", "genre_list", "category"]),
   ("release_year", ["year", "release_year", "release_date", "start_year", "release_date_published"]),
   ("runtime", ["runtime", "duration", "length", "running_time"]),
   ("rating", ["rating", "score", "imdb_rating", "average_rating", "audience_score", "vote_average"]),
   ("vote_count", ["votes", "vote_count", "num_votes", "number_of_votes", "rating_count", "count"]),
   ("popularity", ["popularity", "popular", "score"]),
   ("overview", ["overview", "description", "synopsis", "summary", "plot"])]

/-- The `source_signatures` of `_detect_source`, in declaration order. -/
def sourceSignatures : List (String × List String) :=
  [("imdb", ["tconst", "primary_title", "start_year"]),
   ("tmdb", ["id", "vote_average", "vote_count"]),
   ("movielens", ["movieid", "userid", "timestamp"]),
   ("rotten_tomatoes", ["audience_score", "critics_score"]),
   ("letterboxd", ["imdb_code", "imdb_id"]),
   ("kaggle", ["film_name", "movie_name", "name"])]

/-! ### Source detection (`_detect_source`) -/

/-- `len(sig_cols & df_cols_lower)`. -/
def sigScore (sig : List String) (colsLower : List String) : ℕ :=
  (sig.filter (fun c => colsLower.contains c)).length

/-- The score of every source against a column set, in registry order
(the `scores` dict of `_detect_source`). -/
def detectScores (cols : List String) : List (String × ℕ) :=
  sourceSignatures.map (fun p => (p.1, sigScore p.2 ((cols.map String.toLower).dedup)))

/-- `max(scores, key=scores.get)`: Python `max` keeps the first of tied maxima,
modelled as a left fold that replaces only on strictly greater score. -/
def argmaxFirst (s : String × ℕ) (rest : List (String × ℕ)) : String × ℕ :=
  rest.foldl (fun acc p => if p.2 > acc.2 then p else acc) s

/-- `_detect_source`: pick the first source with maximal signature overlap
(`max` over the non-empty scores dict), fall back to `'kaggle'` when every
score is zero. -/
def detectSource (cols : List String) : String :=
  let detected := argmaxFirst ((detectScores cols).headD ("kaggle", 0)) (detectScores cols).tail
  if detected.2 > 0 then detected.1 else "kaggle"

/-! ### Python-dict association lists -/

/-- Python dict lookup `m.get(k)`: value at the first matching key. -/
def dictGet? : List (String × String) → String → Option String
  | [], _ => none
  | p :: rest, k => if p.1 = k then some p.2 else dictGet? rest k

/-- Whether a key is present (`k in m`). -/
def dictHasKey (m : List (String × String)) (k : String) : Bool :=
  m.any (fun p => decide (p.1 = k))

/-- Whether a value is present (`v in m.values()`). -/
def dictHasVal (m : List (String × String)) (v : String) : Bool :=
  m.any (fun p => decide (p.2 = v))

/-- Python dict assignment `m[k] = v`: overwrite in place when the key exists
(keeping its position), append otherwise. -/
def dictInsert (m : List (String × String)) (k v : String) : List (String × String) :=
  if dictHasKey m k then m.map (fun p => if p.1 = k then (k, v) else p)
  else m ++ [(k, v)]

/-- `{col.lower(): col for col in df.columns}` (later columns win on collision). -/
def buildColsLower (cols : List String) : List (String × String) :=
  cols.foldl (fun m c => dictInsert m c.toLower c) []

/-! ### Column mapping (`_get_column_mapping`, `_fuzzy_match_all`) -/

/-- One field's inner fuzzy loop: walk its pattern list, and at the first
pattern whose lowercase form is an input column not already consumed as a key,
insert `actual -> std` and stop; a pattern whose column is already consumed does
not stop the walk. -/
def fuzzyFill (dcl : List (String × String)) (std : String)
    (m : List (String × String)) : List String → List (String × String)
  | [] => m
  | pat :: rest =>
      match dictGet? dcl pat.toLower with
      | some actual =>
          if dictHasKey m actual then fuzzyFill dcl std m rest
          else dictInsert m actual std
      | none => fuzzyFill dcl std m rest

/-- The exact-dictionary pass: for every `(orig, std)` entry of the source map
whose lowercase original name is an input column, assign `actual -> std`. -/
def exactPass (dcl : List (String × String)) (sourceMap : List (String × String)) :
    List (String × String) :=
  sourceMap.foldl (fun m p =>
      match dictGet? dcl p.1.toLower with
      | some actual => dictInsert m actual p.2
      | none => m) []

/-- The fuzzy pass of `_get_column_mapping`: each canonical field whose name is
not already among the produced values walks its pattern list. -/
def fuzzyPassGuarded (dcl : List (String × String)) (m : List (String × String)) :
    List (String × String) :=
  FUZZY_PATTERNS.foldl (fun m fp =>
      if dictHasVal m fp.1 then m else fuzzyFill dcl fp.1 m fp.2) m

/-- The unguarded fuzzy pass of `_fuzzy_match_all`. -/
def fuzzyPassAll (dcl : List (String × String)) (m : List (String × String)) :
    List (String × String) :=
  FUZZY_PATTERNS.foldl (fun m fp => fuzzyFill dcl fp.1 m fp.2) m

/-- `_fuzzy_match_all`: the fuzzy pass over every canonical field with no
source bias. -/
def fuzzyMatchAll (cols : List String) : List (String × String) :=
  fuzzyPassAll (buildColsLower cols) []

/-- `_get_column_mapping`: exact source-dictionary matches first, then fuzzy
matches for canonical fields not yet produced, then — only if the mapping is
still completely empty — the best-effort global fuzzy pass. -/
def getColumnMapping (cols : List String) (source : String) : List (String × String) :=
  let dcl := buildColsLower cols
  let m2 := fuzzyPassGuarded dcl
    (exactPass dcl (((SOURCE_MAPPINGS.find? (fun p => decide (p.1 = source))).map Prod.snd).getD []))
  if m2 = [] then fuzzyMatchAll cols else m2

/-- The mapping-selection logic of `load_and_map`: detect the source when no
hint is given; use the custom mapping only when it is truthy (a non-empty
dict), otherwise resolve via `_get_column_mapping`. -/
def resolveMapping (cols : List String) (source : Option String)
    (custom : Option (List (String × String))) : List (String × String) :=
  let src := match source with
    | some s => s
    | none => detectSource cols
  match custom with
  | some m => if m = [] then getColumnMapping cols src else m
  | none => getColumnMapping cols src

/-! ### Applying a mapping (`_apply_mapping`) -/

/-- `df.rename(columns=mapping)`. -/
def renameTable (t : Table) (mapping : List (String × String)) : Table :=
  { colNames := t.colNames.map (fun c => (dictGet? mapping c).getD c),
    rows := t.rows }

/-- `df_renamed[existing_std_cols].copy()` where `existing_std_cols` are the
schema fields present, in schema order. -/
def selectSchemaCols (t : Table) : Table :=
  let keep := STANDARD_SCHEMA_FIELDS.filter (fun c => t.colNames.contains c)
  { colNames := keep,
    rows := t.rows.map (fun r => keep.map (fun c => r.getD (t.colIdx c) Value.na)) }

/-- `_apply_mapping`: rename mapped columns, keep only canonical fields. -/
def Table.applyMapping (t : Table) (mapping : List (String × String)) : Table :=
  selectSchemaCols (renameTable t mapping)

/-! ### Normalization (`_validate_and_clean`), as a chain of named stages -/

/-- De-duplication stage: runs only when both `title` and `release_year` exist. -/
def dedupStep (t : Table) : Table :=
  if t.hasCol "title" && t.hasCol "release_year" then t.dropDuplicatesTitleYear else t

/-- A numeric cleaning stage: transform column `c` by `g` when present. -/
def numStep (c : String) (g : List Value → List Value) (t : Table) : Table :=
  if t.hasCol c then t.setCol c (g (t.getCol c)) else t

/-- The synthesized movie identifiers `["MOV00001", ...]` for `n` rows. -/
def movieIdVals (n : ℕ) : List Value :=
  (List.range n).map (fun i => Value.str (movieIdStr (i + 1)))

/-- Identity backfill stage: synthesize `movie_id` when absent. -/
def movieIdStep (t : Table) : Table :=
  if t.hasCol "movie_id" then t else t.addCol "movie_id" (movieIdVals t.rows.length)

/-- Genre normalization stage: the per-cell `astype(str)`-plus-lambda transform
applied to the `genres` column when present. -/
def genresStep (t : Table) : Table :=
  numStep "genres" (fun vs => vs.map cleanGenres) t

/-- `_validate_and_clean`: dedup, then the per-column coercions/imputation in
source order (`rating`, `vote_count`, `runtime`, `release_year`, `popularity`),
then movie-id backfill, then genre normalization. -/
def Table.validateAndClean (t : Table) : Table :=
  genresStep (movieIdStep
    (numStep "popularity" imputeZero
      (numStep "release_year" yearCoerce
        (numStep "runtime" imputeMedian
          (numStep "vote_count" imputeZero
            (numStep "rating" imputeMedian (dedupStep t)))))))

/-! ### An object-level model of the pipeline, for the no-mutation claim

The caller's data frame is one object among others on a heap.  Each statement
of the source is transcribed with the frame it targets: `df.rename(...)`,
`df_renamed[cols].copy()`, `df.copy()` and `df.drop_duplicates(...)` return
fresh frames (the last two are bound to the local `df`), while column
assignment `df[c] = ...` and `fillna(..., inplace=True)` mutate the local
frame in place. -/

/-- A heap of data-frame objects; indices are object identities. -/
abbrev Heap : Type := List Table

/-- Read the object at an index (a dummy empty frame when out of range). -/
def hget (h : Heap) (i : ℕ) : Table := List.getD h i ⟨[], []⟩

/-- Allocate a fresh object, returning the new heap and the fresh index. -/
def halloc (h : Heap) (t : Table) : Heap × ℕ := (h ++ [t], List.length h)

/-- Mutate the object at an index in place. -/
def hset (h : Heap) (i : ℕ) (t : Table) : Heap := List.set h i t

/-- Number of objects on the heap. -/
def hlen (h : Heap) : ℕ := List.length h

/-- `_apply_mapping` on the heap: `df.rename(columns=mapping)` allocates the
renamed frame, and the projection `.copy()` allocates the result frame; the
input frame is only read. -/
def applyMappingH (h : Heap) (i : ℕ) (mapping : List (String × String)) : Heap × ℕ :=
  let a1 := halloc h (renameTable (hget h i) mapping)
  halloc a1.1 (selectSchemaCols (hget a1.1 a1.2))

/-- A numeric cleaning statement on the heap: when column `c` exists, the
column assignment (and in-place `fillna`) mutates frame `j`. -/
def numStepH (c : String) (g : List Value → List Value) (h : Heap) (j : ℕ) : Heap :=
  if (hget h j).hasCol c then hset h j ((hget h j).setCol c (g ((hget h j).getCol c))) else h

/-- The movie-id backfill statement on the heap: `df['movie_id'] = [...]`
mutates frame `j` when the column is absent. -/
def movieIdStepH (h : Heap) (j : ℕ) : Heap :=
  if (hget h j).hasCol "movie_id" then h
  else hset h j ((hget h j).addCol "movie_id" (movieIdVals (hget h j).rows.length))

/-- The genres statement on the heap. -/
def genresStepH (h : Heap) (j : ℕ) : Heap :=
  numStepH "genres" (fun vs => vs.map cleanGenres) h j

/-- The in-place statements of `_validate_and_clean` after the copy and the
de-duplication: the per-column coercions, the movie-id backfill and the genre
normalization, all mutating the working frame `j`. -/
def mutTailH (h : Heap) (j : ℕ) : Heap :=
  genresStepH (movieIdStepH (numStepH "popularity" imputeZero (numStepH "release_year" yearCoerce
    (numStepH "runtime" imputeMedian (numStepH "vote_count" imputeZero
      (numStepH "rating" imputeMedian h j) j) j) j) j) j) j

/-- `_validate_and_clean` on the heap: `df = df.copy()` allocates the working
frame, `df = df.drop_duplicates(...)` rebinds `df` to a fresh frame, and every
later statement mutates the working frame in place. -/
def validateAndCleanH (h : Heap) (i : ℕ) : Heap × ℕ :=
  let a1 := halloc h (hget h i)
  let a2 := if (hget a1.1 a1.2).hasCol "title" && (hget a1.1 a1.2).hasCol "release_year"
            then halloc a1.1 ((hget a1.1 a1.2).dropDuplicatesTitleYear)
            else a1
  (mutTailH a2.1 a2.2, a2.2)

/-- The mapping-plus-normalization tail of `load_and_map` on the heap. -/
def loadAndMapH (h : Heap) (i : ℕ) (source : Option String)
    (custom : Option (List (String × String))) : Heap × ℕ :=
  let mapping := resolveMapping (hget h i).colNames source custom
  let a := applyMappingH h i mapping
  validateAndCleanH a.1 a.2

/-! ## Generic helper lemmas -/

/-- A property preserved by every fold step is preserved by the fold. -/
theorem foldl_preserve {α β : Type} (P : α → Prop) {f : α → β → α}
    (hf : ∀ a b, P a → P (f a b)) : ∀ (l : List β) (a : α), P a → P (l.foldl f a)
  | [], _, h => h
  | b :: t, a, h => foldl_preserve P hf t (f a b) (hf a b h)

/-! ## Keys of the resolved mapping -/

theorem dictHasKey_false_not_mem {m : List (String × String)} {k : String}
    (h : dictHasKey m k = false) : ∀ p ∈ m, p.1 ≠ k := by
  intro p hp
  unfold dictHasKey at h
  rw [List.any_eq_false] at h
  have := h p hp
  simpa using this

theorem dictInsert_keys_nodup {m : List (String × String)} (k v : String)
    (h : (m.map Prod.fst).Nodup) : ((dictInsert m k v).map Prod.fst).Nodup := by
  unfold dictInsert
  split
  · have heq : (m.map (fun p => if p.1 = k then (k, v) else p)).map Prod.fst
        = m.map Prod.fst := by
      rw [List.map_map]
      apply List.map_congr_left
      intro p _
      by_cases hpk : p.1 = k
      · simp [hpk]
      · simp [hpk]
    rw [heq]; exact h
  · rename_i hany
    rw [List.map_append, List.nodup_append]
    refine ⟨h, by simp, ?_⟩
    intro a ha hb
    simp only [List.map_cons, List.map_nil, List.mem_singleton] at hb
    subst hb
    obtain ⟨p, hp, hpk⟩ := List.mem_map.mp ha
    exact dictHasKey_false_not_mem (Bool.of_not_eq_true hany) p hp hpk

theorem fuzzyFill_keys_nodup (dcl : List (String × String)) (std : String) :
    ∀ (pats : List String) (m : List (String × String)),
      (m.map Prod.fst).Nodup → ((fuzzyFill dcl std m pats).map Prod.fst).Nodup := by
  intro pats
  induction pats with
  | nil => intro m h; exact h
  | cons pat rest ih =>
      intro m h
      unfold fuzzyFill
      cases hd : dictGet? dcl pat.toLower with
      | none => exact ih m h
      | some actual =>
          simp only []
          split
          · exact ih m h
          · exact dictInsert_keys_nodup actual std h

theorem exactPass_keys_nodup (dcl sourceMap : List (String × String)) :
    ((exactPass dcl sourceMap).map Prod.fst).Nodup := by
  unfold exactPass
  have hbase : ((([] : List (String × String)).map Prod.fst)).Nodup := by simp
  refine foldl_preserve (fun m : List (String × String) => (m.map Prod.fst).Nodup) ?_ sourceMap [] hbase
  intro m p h
  cases hd : dictGet? dcl p.1.toLower with
  | none => simpa [hd] using h
  | some actual => simpa [hd] using dictInsert_keys_nodup actual p.2 h

theorem fuzzyPassGuarded_keys_nodup (dcl m : List (String × String))
    (h : (m.map Prod.fst).Nodup) : ((fuzzyPassGuarded dcl m).map Prod.fst).Nodup := by
  unfold fuzzyPassGuarded
  refine foldl_preserve (fun m : List (String × String) => (m.map Prod.fst).Nodup) ?_ FUZZY_PATTERNS m h
  intro m fp hm
  split
  · exact hm
  · exact fuzzyFill_keys_nodup dcl fp.1 fp.2 m hm

theorem fuzzyMatchAll_keys_nodup (cols : List String) :
    ((fuzzyMatchAll cols).map Prod.fst).Nodup := by
  unfold fuzzyMatchAll fuzzyPassAll
  have hbase : ((([] : List (String × String)).map Prod.fst)).Nodup := by simp
  refine foldl_preserve (fun m : List (String × String) => (m.map Prod.fst).Nodup) ?_ FUZZY_PATTERNS [] hbase
  intro m fp hm
  exact fuzzyFill_keys_nodup _ fp.1 fp.2 m hm

/-- C1, amended: the resolved mapping is a well-formed dictionary keyed by raw
column names — resolution never maps one raw column to two canonical fields
(its raw-column keys are pairwise distinct). -/
theorem c1_resolve_raw_column_consumed_once (cols : List String) (source : String) :
    ((getColumnMapping cols source).map Prod.fst).Nodup := by
  rw [getColumnMapping]
  split
  · exact fuzzyMatchAll_keys_nodup cols
  · exact fuzzyPassGuarded_keys_nodup _ _ (exactPass_keys_nodup _ _)

/-- C1, counterexample: resolving the columns `primary_title`, `original_title`
against the `imdb` exact dictionary maps two distinct raw columns to the same
canonical field `title`, so the resolved mapping is not injective from raw
columns to canonical fields. -/
theorem c1_counterexample_two_raws_one_field :
    getColumnMapping ["primary_title", "original_title"] "imdb"
      = [("primary_title", "title"), ("original_title", "title")] ∧
    ("primary_title", "title") ∈ getColumnMapping ["primary_title", "original_title"] "imdb" ∧
    ("original_title", "title") ∈ getColumnMapping ["primary_title", "original_title"] "imdb" ∧
    "primary_title" ≠ "original_title" := by
  refine ⟨?_, ?_, ?_, ?_⟩ <;> with_unfolding_all decide

/-! ## C3: caller-supplied mapping -/

/-- C3, amended: whenever the caller supplies a non-empty explicit mapping,
mapping resolution returns exactly that mapping unmodified, regardless of any
source hint; the inference passes contribute nothing.  (A supplied empty
mapping is falsy in the source's truthiness test and is treated as absent.) -/
theorem c3_custom_mapping_verbatim (cols : List String) (source : Option String)
    (m : List (String × String)) (hm : m ≠ []) :
    resolveMapping cols source (some m) = m := by
  unfold resolveMapping
  simp [hm]

/-- C3, witness: a concrete one-entry custom mapping is returned verbatim even
though a source hint is present. -/
theorem c3_custom_mapping_verbatim_witness :
    resolveMapping ["a"] (some "tmdb") (some [("a", "b")]) = [("a", "b")] :=
  c3_custom_mapping_verbatim ["a"] (some "tmdb") [("a", "b")] (by decide)

/-- C3, counterexample: the caller supplies the explicit empty mapping, yet
resolution does not return it — the truthiness test `if custom_mapping:`
treats `{}` as absent, and inference runs and returns a non-empty mapping. -/
theorem c3_counterexample_empty_custom_mapping :
    resolveMapping ["title"] none (some []) = [("title", "title")] ∧
    [("title", "title")] ≠ ([] : List (String × String)) := by
  constructor
  · with_unfolding_all decide
  · decide

/-! ## C7: genre normalization -/

/-- C7, code bug: bracket and quote stripping works as specified (second
conjunct), but a missing `genres` value is rendered as the literal string
`"nan"`, not `"Unknown"`: `astype(str)` stringifies NaN before the `pd.notna`
test, so the source's own `'Unknown'` branch is unreachable. -/
theorem c7_genres_missing_becomes_nan :
    (Table.validateAndClean ⟨["genres"], [[Value.na]]⟩).getCol "genres"
      = [Value.str "nan"] ∧
    Value.str "nan" ≠ Value.str "Unknown" ∧
    (Table.validateAndClean ⟨["genres"],
        [[Value.str ("[" ++ String.singleton squoteChar ++ "Action" ++ String.singleton squoteChar
            ++ ", " ++ String.singleton squoteChar ++ "Drama" ++ String.singleton squoteChar ++ "]")]]⟩).getCol "genres"
      = [Value.str "Action, Drama"] := by
  refine ⟨?_, by decide, ?_⟩ <;> with_unfolding_all decide

/-! ## C2: source detection -/

/-- The fold modelling Python's `max(..., key=...)` returns an element of the
input that is strictly greater than everything before it and at least as great
as everything after it (first maximum wins). -/
theorem argmaxFirst_decomp : ∀ (l : List (String × ℕ)) (s : String × ℕ),
    ∃ l₁ l₂, s :: l = l₁ ++ argmaxFirst s l :: l₂ ∧
      (∀ p ∈ l₁, p.2 < (argmaxFirst s l).2) ∧ (∀ p ∈ l₂, p.2 ≤ (argmaxFirst s l).2) := by
  intro l
  induction l with
  | nil =>
      intro s
      exact ⟨[], [], by simp [argmaxFirst], by simp, by simp⟩
  | cons p t ih =>
      intro s
      by_cases hc : s.2 < p.2
      · have hstep2 : argmaxFirst s (p :: t) = argmaxFirst p t := by
          show argmaxFirst (if p.2 > s.2 then p else s) t = argmaxFirst p t
          rw [if_pos hc]
        obtain ⟨l₁, l₂, heq, h₁, h₂⟩ := ih p
        have hple : p.2 ≤ (argmaxFirst p t).2 := by
          cases l₁ with
          | nil =>
              simp only [List.nil_append] at heq
              injection heq with h1 _
              rw [← h1]
          | cons q l₁' =>
              rw [List.cons_append] at heq
              injection heq with h1 _
              exact le_of_lt (h1 ▸ h₁ q (List.mem_cons_self q l₁'))
        refine ⟨s :: l₁, l₂, ?_, ?_, ?_⟩
        · rw [hstep2, List.cons_append, ← heq]
        · intro x hx
          rw [hstep2]
          rcases List.mem_cons.mp hx with hx | hx
          · subst hx; omega
          · exact h₁ x hx
        · rw [hstep2]; exact h₂
      · have hstep2 : argmaxFirst s (p :: t) = argmaxFirst s t := by
          show argmaxFirst (if p.2 > s.2 then p else s) t = argmaxFirst s t
          rw [if_neg hc]
        obtain ⟨l₁, l₂, heq, h₁, h₂⟩ := ih s
        cases l₁ with
        | nil =>
            simp only [List.nil_append] at heq
            injection heq with h1 h2
            refine ⟨[], p :: l₂, ?_, by simp, ?_⟩
            · rw [hstep2, List.nil_append, ← h1, ← h2]
            · intro x hx
              rw [hstep2, ← h1]
              rcases List.mem_cons.mp hx with hx | hx
              · subst hx; omega
              · have := h₂ x hx
                rw [← h1] at this
                exact this
        | cons q l₁' =>
            rw [List.cons_append] at heq
            injection heq with h1 h2
            have hq : q.2 < (argmaxFirst s t).2 := h₁ q (List.mem_cons_self q l₁')
            refine ⟨s :: p :: l₁', l₂, ?_, ?_, ?_⟩
            · rw [hstep2, List.cons_append, List.cons_append]
              exact congrArg (fun x => s :: p :: x) h2
            · intro x hx
              rw [hstep2]
              have e1 : s.2 = q.2 := by rw [h1]
              rcases List.mem_cons.mp hx with hx | hx
              · subst hx; omega
              rcases List.mem_cons.mp hx with hx | hx
              · subst hx; omega
              · exact h₁ x (List.mem_cons_of_mem q hx)
            · rw [hstep2]; exact h₂

/-- Sources are uniquely named in the detection registry. -/
theorem sourceSignatures_names_inj :
    ∀ S ∈ sourceSignatures, ∀ T ∈ sourceSignatures, T.1 = S.1 → T = S := by decide

/-- C2: source detection scores every source by the overlap of the case-folded
input columns with its diagnostic set and picks the maximum.  The winner is the
first entry in registry order beating all earlier scores strictly (first
declared wins among ties); a source whose score is positive while every other
source scores zero is always detected; and when every score is zero the fixed
default `'kaggle'` is returned instead of failing. -/
theorem c2_detect_source (cols : List String) :
    (∃ w l₁ l₂, detectScores cols = l₁ ++ w :: l₂ ∧
        (∀ p ∈ l₁, p.2 < w.2) ∧ (∀ p ∈ l₂, p.2 ≤ w.2) ∧
        detectSource cols = (if 0 < w.2 then w.1 else "kaggle")) ∧
    (∀ S ∈ sourceSignatures,
        0 < sigScore S.2 ((cols.map String.toLower).dedup) →
        (∀ T ∈ sourceSignatures, T.1 ≠ S.1 →
          sigScore T.2 ((cols.map String.toLower).dedup) = 0) →
        detectSource cols = S.1) ∧
    ((∀ S ∈ sourceSignatures, sigScore S.2 ((cols.map String.toLower).dedup) = 0) →
        detectSource cols = "kaggle") := by
  obtain ⟨l₁, l₂, heq, h₁, h₂⟩ := argmaxFirst_decomp
    ((detectScores cols).tail) ((detectScores cols).headD ("kaggle", 0))
  have hht : (detectScores cols).headD ("kaggle", 0) :: (detectScores cols).tail
      = detectScores cols := rfl
  rw [hht] at heq
  have hdet : detectSource cols
      = (if 0 < (argmaxFirst ((detectScores cols).headD ("kaggle", 0))
            (detectScores cols).tail).2
         then (argmaxFirst ((detectScores cols).headD ("kaggle", 0))
            (detectScores cols).tail).1
         else "kaggle") := rfl
  have hwmem : argmaxFirst ((detectScores cols).headD ("kaggle", 0))
      (detectScores cols).tail ∈ detectScores cols := by
    have h := heq
    generalize hw : argmaxFirst ((detectScores cols).headD ("kaggle", 0))
        (detectScores cols).tail = w at h ⊢
    rw [h]
    exact List.mem_append_right l₁ (List.mem_cons_self _ _)
  obtain ⟨T, hT, hTw⟩ := List.mem_map.mp hwmem
  refine ⟨⟨_, l₁, l₂, heq, h₁, h₂, hdet⟩, ?_, ?_⟩
  · intro S hS hpos hothers
    have hemem : (S.1, sigScore S.2 ((cols.map String.toLower).dedup))
        ∈ detectScores cols := List.mem_map_of_mem _ hS
    by_cases hT1 : T.1 = S.1
    · have hTS : T = S := sourceSignatures_names_inj S hS T hT hT1
      subst hTS
      rw [hdet, ← hTw]
      simp [hpos]
    · have hwz : (argmaxFirst ((detectScores cols).headD ("kaggle", 0))
          (detectScores cols).tail).2 = 0 := by
        rw [← hTw]
        exact hothers T hT hT1
      rw [heq] at hemem
      rcases List.mem_append.mp hemem with hm | hm
      · have := h₁ _ hm
        rw [hwz] at this
        omega
      · rcases List.mem_cons.mp hm with hm | hm
        · exfalso
          apply hT1
          have : ((S.1, sigScore S.2 ((cols.map String.toLower).dedup))).1
              = (argmaxFirst ((detectScores cols).headD ("kaggle", 0))
                  (detectScores cols).tail).1 := by rw [← hm]
          rw [← hTw] at this
          exact this.symm
        · have := h₂ _ hm
          rw [hwz] at this
          simp only [] at this
          omega
  · intro hall
    have hwz : (argmaxFirst ((detectScores cols).headD ("kaggle", 0))
        (detectScores cols).tail).2 = 0 := by
      rw [← hTw]
      exact hall T hT
    rw [hdet, hwz]
    simp

/-- C2, witness: a table carrying exactly imdb's diagnostic columns is detected
as imdb. -/
theorem c2_detect_source_witness :
    detectSource ["tconst", "primary_title", "start_year"] = "imdb" :=
  (c2_detect_source ["tconst", "primary_title", "start_year"]).2.1
    ("imdb", ["tconst", "primary_title", "start_year"]) (by decide)
    (by with_unfolding_all decide) (by with_unfolding_all decide)

/-! ## Table plumbing lemmas -/

theorem mem_zipWith_imp {α β γ : Type} {f : α → β → γ} :
    ∀ {l₁ : List α} {l₂ : List β} {c : γ}, c ∈ List.zipWith f l₁ l₂ →
      ∃ a ∈ l₁, ∃ b ∈ l₂, c = f a b := by
  intro l₁
  induction l₁ with
  | nil => intro l₂ c h; simp at h
  | cons a t ih =>
      intro l₂ c h
      cases l₂ with
      | nil => simp at h
      | cons b t2 =>
          rw [List.zipWith_cons_cons] at h
          rcases List.mem_cons.mp h with h | h
          · exact ⟨a, List.mem_cons_self a t, b, List.mem_cons_self b t2, h⟩
          · obtain ⟨x, hx, y, hy, hc⟩ := ih h
            exact ⟨x, List.mem_cons_of_mem a hx, y, List.mem_cons_of_mem b hy, hc⟩

theorem map_eq_map_of_const {α β γ : Type} {f : α → γ} {g : β → γ} {c : γ} :
    ∀ {l₁ : List α} {l₂ : List β}, l₁.length = l₂.length →
      (∀ x ∈ l₁, f x = c) → (∀ y ∈ l₂, g y = c) → l₁.map f = l₂.map g := by
  intro l₁
  induction l₁ with
  | nil =>
      intro l₂ hl _ _
      cases l₂ with
      | nil => rfl
      | cons b t2 => simp at hl
  | cons a t ih =>
      intro l₂ hl hf hg
      cases l₂ with
      | nil => simp at hl
      | cons b t2 =>
          simp only [List.map_cons]
          rw [hf a (List.mem_cons_self a t), hg b (List.mem_cons_self b t2)]
          rw [ih (by simpa using hl) (fun x hx => hf x (List.mem_cons_of_mem a hx))
            (fun y hy => hg y (List.mem_cons_of_mem b hy))]

theorem hasCol_iff {t : Table} {c : String} : t.hasCol c = true ↔ c ∈ t.colNames := by
  simp [Table.hasCol]

theorem colIdx_lt_of_hasCol {t : Table} {c : String} (h : t.hasCol c = true) :
    t.colIdx c < t.colNames.length :=
  List.indexOf_lt_length.mpr (hasCol_iff.mp h)

theorem colIdx_eq_length_of_not_hasCol {t : Table} {c : String} (h : ¬ t.hasCol c = true) :
    t.colIdx c = t.colNames.length :=
  List.indexOf_eq_length.mpr (fun hm => h (hasCol_iff.mpr hm))

theorem colIdx_ne {t : Table} {c c2 : String} (hne : c ≠ c2) (h2 : t.hasCol c2 = true) :
    t.colIdx c ≠ t.colIdx c2 := by
  by_cases h : t.hasCol c = true
  · intro heq
    apply hne
    have hlt := colIdx_lt_of_hasCol h
    have hlt2 := colIdx_lt_of_hasCol h2
    have e1 := List.indexOf_get hlt
    have e2 := List.indexOf_get hlt2
    rw [← e1, ← e2]
    congr 1
    exact Fin.ext heq
  · have hl := colIdx_eq_length_of_not_hasCol h
    have hlt2 := colIdx_lt_of_hasCol h2
    omega

theorem length_imputeMedian (vs : List Value) : (imputeMedian vs).length = vs.length := by
  simp [imputeMedian]

theorem length_imputeZero (vs : List Value) : (imputeZero vs).length = vs.length := by
  simp [imputeZero]

theorem length_yearCoerce (vs : List Value) : (yearCoerce vs).length = vs.length := by
  simp [yearCoerce]

theorem length_map_cleanGenres (vs : List Value) : (vs.map cleanGenres).length = vs.length := by
  simp

theorem getCol_length (t : Table) (c : String) : (t.getCol c).length = t.rows.length := by
  simp [Table.getCol]

theorem setCol_colNames (t : Table) (c : String) (vs : List Value) :
    (t.setCol c vs).colNames = t.colNames := rfl

theorem setCol_rows_length {t : Table} {c : String} {vs : List Value}
    (h : vs.length = t.rows.length) : (t.setCol c vs).rows.length = t.rows.length := by
  simp [Table.setCol, h]

theorem WF_setCol {t : Table} (hwf : t.WF) {c : String} {vs : List Value} :
    (t.setCol c vs).WF := by
  intro r hr
  obtain ⟨a, ha, b, _, hc⟩ := mem_zipWith_imp hr
  subst hc
  rw [setCol_colNames]
  rw [List.length_set]
  exact hwf a ha

theorem map_getD_zipWith_set :
    ∀ (rows : List (List Value)) (vs : List Value) (i : ℕ),
      (∀ r ∈ rows, i < r.length) → vs.length = rows.length →
      (List.zipWith (fun r v => r.set i v) rows vs).map (fun r => r.getD i Value.na) = vs := by
  intro rows
  induction rows with
  | nil =>
      intro vs i _ hlen
      cases vs with
      | nil => rfl
      | cons v vt => simp at hlen
  | cons r rs ih =>
      intro vs i hall hlen
      cases vs with
      | nil => simp at hlen
      | cons v vt =>
          rw [List.zipWith_cons_cons, List.map_cons]
          congr 1
          · rw [List.getD_eq_getElem?_getD, List.getElem?_set_self (hall r (List.mem_cons_self r rs))]
            rfl
          · exact ih vt i (fun x hx => hall x (List.mem_cons_of_mem r hx)) (by simpa using hlen)

theorem map_getD_zipWith_set_ne :
    ∀ (rows : List (List Value)) (vs : List Value) (i j : ℕ), i ≠ j →
      vs.length = rows.length →
      (List.zipWith (fun r v => r.set j v) rows vs).map (fun r => r.getD i Value.na)
        = rows.map (fun r => r.getD i Value.na) := by
  intro rows
  induction rows with
  | nil => intro vs i j _ _; rfl
  | cons r rs ih =>
      intro vs i j hne hlen
      cases vs with
      | nil => simp at hlen
      | cons v vt =>
          rw [List.zipWith_cons_cons, List.map_cons, List.map_cons]
          congr 1
          · rw [List.getD_eq_getElem?_getD, List.getD_eq_getElem?_getD,
              List.getElem?_set_ne (fun h => hne h.symm)]
          · exact ih vt i j hne (by simpa using hlen)

theorem getCol_setCol_self {t : Table} (hwf : t.WF) {c : String} {vs : List Value}
    (hc : t.hasCol c = true) (hlen : vs.length = t.rows.length) :
    (t.setCol c vs).getCol c = vs := by
  show (List.zipWith (fun r v => r.set (t.colIdx c) v) t.rows vs).map
      (fun r => r.getD ((t.setCol c vs).colIdx c) Value.na) = vs
  rw [show (t.setCol c vs).colIdx c = t.colIdx c from rfl]
  exact map_getD_zipWith_set t.rows vs (t.colIdx c)
    (fun r hr => by rw [hwf r hr]; exact colIdx_lt_of_hasCol hc) hlen

theorem getCol_setCol_ne {t : Table} {c c2 : String} {vs : List Value}
    (hne : c ≠ c2) (h2 : t.hasCol c2 = true) (hlen : vs.length = t.rows.length) :
    (t.setCol c2 vs).getCol c = t.getCol c := by
  show (List.zipWith (fun r v => r.set (t.colIdx c2) v) t.rows vs).map
      (fun r => r.getD ((t.setCol c2 vs).colIdx c) Value.na) = t.getCol c
  rw [show (t.setCol c2 vs).colIdx c = t.colIdx c from rfl]
  exact map_getD_zipWith_set_ne t.rows vs (t.colIdx c) (t.colIdx c2) (colIdx_ne hne h2) hlen

/-! ### Step lemmas -/

theorem numStep_colNames (c : String) (g : List Value → List Value) (t : Table) :
    (numStep c g t).colNames = t.colNames := by
  unfold numStep
  split <;> rfl

theorem numStep_hasCol (c : String) (g : List Value → List Value) (t : Table) (c2 : String) :
    (numStep c g t).hasCol c2 = t.hasCol c2 := by
  unfold Table.hasCol
  rw [numStep_colNames]

theorem numStep_rows_length (c : String) {g : List Value → List Value} (t : Table)
    (hg : ∀ vs, (g vs).length = vs.length) :
    (numStep c g t).rows.length = t.rows.length := by
  unfold numStep
  split
  · exact setCol_rows_length (by rw [hg, getCol_length])
  · rfl

theorem WF_numStep {t : Table} (hwf : t.WF) (c : String) {g : List Value → List Value} :
    (numStep c g t).WF := by
  unfold numStep
  split
  · exact WF_setCol hwf
  · exact hwf

theorem getCol_numStep_self {t : Table} (hwf : t.WF) {c : String} {g : List Value → List Value}
    (hg : ∀ vs, (g vs).length = vs.length) (hc : t.hasCol c = true) :
    (numStep c g t).getCol c = g (t.getCol c) := by
  unfold numStep
  rw [if_pos hc]
  exact getCol_setCol_self hwf hc (by rw [hg, getCol_length])

theorem getCol_numStep_ne {t : Table} {c c2 : String} {g : List Value → List Value}
    (hg : ∀ vs, (g vs).length = vs.length) (hne : c ≠ c2) :
    (numStep c2 g t).getCol c = t.getCol c := by
  unfold numStep
  split
  · rename_i h2
    exact getCol_setCol_ne hne h2 (by rw [hg, getCol_length])
  · rfl

theorem dedupByKey_sublist {α κ : Type} [DecidableEq κ] (key : α → κ) :
    ∀ (l : List α) (seen : List κ), (dedupByKey key l seen).Sublist l := by
  intro l
  induction l with
  | nil => intro seen; exact List.Sublist.refl _
  | cons r rest ih =>
      intro seen
      unfold dedupByKey
      split
      · exact List.Sublist.cons r (ih seen)
      · exact List.Sublist.cons₂ r (ih (key r :: seen))

theorem dedupStep_colNames (t : Table) : (dedupStep t).colNames = t.colNames := by
  unfold dedupStep
  split <;> rfl

theorem dedupStep_hasCol (t : Table) (c : String) : (dedupStep t).hasCol c = t.hasCol c := by
  unfold Table.hasCol
  rw [dedupStep_colNames]

theorem dedupStep_rows_sublist (t : Table) : (dedupStep t).rows.Sublist t.rows := by
  unfold dedupStep
  split
  · exact dedupByKey_sublist _ t.rows []
  · exact List.Sublist.refl _

theorem WF_dedupStep {t : Table} (hwf : t.WF) : (dedupStep t).WF := by
  intro r hr
  rw [dedupStep_colNames]
  exact hwf r ((dedupStep_rows_sublist t).subset hr)

theorem addCol_colNames (t : Table) (c : String) (vs : List Value) :
    (t.addCol c vs).colNames = t.colNames ++ [c] := rfl

theorem WF_addCol {t : Table} (hwf : t.WF) {c : String} {vs : List Value} :
    (t.addCol c vs).WF := by
  intro r hr
  obtain ⟨a, ha, b, _, hc⟩ := mem_zipWith_imp hr
  subst hc
  rw [addCol_colNames]
  simp [hwf a ha]

theorem addCol_rows_length {t : Table} {c : String} {vs : List Value}
    (hlen : vs.length = t.rows.length) : (t.addCol c vs).rows.length = t.rows.length := by
  simp [Table.addCol, hlen]

theorem map_getD_zipWith_append_lt :
    ∀ (rows : List (List Value)) (vs : List Value) (i : ℕ),
      (∀ r ∈ rows, i < r.length) → vs.length = rows.length →
      (List.zipWith (fun r v => r ++ [v]) rows vs).map (fun r => r.getD i Value.na)
        = rows.map (fun r => r.getD i Value.na) := by
  intro rows
  induction rows with
  | nil => intro vs i _ _; rfl
  | cons r rs ih =>
      intro vs i hall hlen
      cases vs with
      | nil => simp at hlen
      | cons v vt =>
          rw [List.zipWith_cons_cons, List.map_cons, List.map_cons]
          congr 1
          · exact List.getD_append r [v] Value.na i (hall r (List.mem_cons_self r rs))
          · exact ih vt i (fun x hx => hall x (List.mem_cons_of_mem r hx)) (by simpa using hlen)

theorem getD_eq_default_of_ge {r : List Value} {i : ℕ} (h : r.length ≤ i) :
    r.getD i Value.na = Value.na := by
  rw [List.getD_eq_getElem?_getD, List.getElem?_eq_none h]
  rfl

theorem getCol_addCol_ne {t : Table} (hwf : t.WF) {c c2 : String} {vs : List Value}
    (hne : c ≠ c2) (hlen : vs.length = t.rows.length) :
    (t.addCol c2 vs).getCol c = t.getCol c := by
  by_cases hc : t.hasCol c = true
  · show (List.zipWith (fun r v => r ++ [v]) t.rows vs).map
        (fun r => r.getD ((t.addCol c2 vs).colIdx c) Value.na) = t.getCol c
    have hidx : (t.addCol c2 vs).colIdx c = t.colIdx c := by
      unfold Table.colIdx
      rw [addCol_colNames]
      exact List.indexOf_append_of_mem (hasCol_iff.mp hc)
    rw [hidx]
    exact map_getD_zipWith_append_lt t.rows vs (t.colIdx c)
      (fun r hr => by rw [hwf r hr]; exact colIdx_lt_of_hasCol hc) hlen
  · -- both sides read out of range: every cell is na
    show (List.zipWith (fun r v => r ++ [v]) t.rows vs).map
        (fun r => r.getD ((t.addCol c2 vs).colIdx c) Value.na) = t.getCol c
    have hlen2 : (List.zipWith (fun r v => r ++ [v]) t.rows vs).length = t.rows.length := by
      simp [hlen]
    have hidx2 : (t.addCol c2 vs).colIdx c = t.colNames.length + 1 := by
      unfold Table.colIdx
      rw [addCol_colNames]
      have : c ∉ t.colNames ++ [c2] := by
        intro hm
        rcases List.mem_append.mp hm with hm | hm
        · exact hc (hasCol_iff.mpr hm)
        · exact hne (List.mem_singleton.mp hm)
      rw [List.indexOf_eq_length.mpr this]
      simp
    rw [hidx2]
    apply map_eq_map_of_const hlen2
    · intro x hx
      obtain ⟨a, ha, b, _, hab⟩ := mem_zipWith_imp hx
      subst hab
      apply getD_eq_default_of_ge
      rw [List.length_append, hwf a ha]
      simp
    · intro y hy
      apply getD_eq_default_of_ge
      rw [hwf y hy, colIdx_eq_length_of_not_hasCol hc]

theorem movieIdVals_length (n : ℕ) : (movieIdVals n).length = n := by
  simp [movieIdVals]

theorem movieIdStep_rows_length (t : Table) : (movieIdStep t).rows.length = t.rows.length := by
  unfold movieIdStep
  split
  · rfl
  · exact addCol_rows_length (movieIdVals_length _)

theorem WF_movieIdStep {t : Table} (hwf : t.WF) : (movieIdStep t).WF := by
  unfold movieIdStep
  split
  · exact hwf
  · exact WF_addCol hwf

theorem getCol_movieIdStep_ne {t : Table} (hwf : t.WF) {c : String} (hne : c ≠ "movie_id") :
    (movieIdStep t).getCol c = t.getCol c := by
  unfold movieIdStep
  split
  · rfl
  · exact getCol_addCol_ne hwf hne (movieIdVals_length _)

theorem movieIdStep_hasCol_ne (t : Table) {c : String} (hne : c ≠ "movie_id") :
    ((movieIdStep t).hasCol c = true) ↔ (t.hasCol c = true) := by
  unfold movieIdStep
  split
  · exact Iff.rfl
  · rw [hasCol_iff, hasCol_iff, addCol_colNames]
    constructor
    · intro hm
      rcases List.mem_append.mp hm with hm | hm
      · exact hm
      · exact absurd (List.mem_singleton.mp hm) hne
    · intro hm
      exact List.mem_append.mpr (Or.inl hm)

theorem WF_validateAndClean {t : Table} (hwf : t.WF) : (Table.validateAndClean t).WF := by
  unfold Table.validateAndClean genresStep
  exact WF_numStep (WF_movieIdStep (WF_numStep (WF_numStep (WF_numStep (WF_numStep
    (WF_numStep (WF_dedupStep hwf) _) _) _) _) _)) _

theorem validateAndClean_hasCol_ne (t : Table) {c : String} (hne : c ≠ "movie_id") :
    ((Table.validateAndClean t).hasCol c = true) ↔ (t.hasCol c = true) := by
  unfold Table.validateAndClean genresStep
  rw [numStep_hasCol]
  rw [movieIdStep_hasCol_ne _ hne]
  rw [numStep_hasCol, numStep_hasCol, numStep_hasCol, numStep_hasCol, numStep_hasCol,
    dedupStep_hasCol]

theorem getCol_all_na {t : Table} (hwf : t.WF) {c : String} (h : ¬ t.hasCol c = true) :
    ∀ v ∈ t.getCol c, v = Value.na := by
  intro v hv
  obtain ⟨r, hr, hrv⟩ := List.mem_map.mp hv
  subst hrv
  apply getD_eq_default_of_ge
  rw [hwf r hr, colIdx_eq_length_of_not_hasCol h]

/-- The value of each canonical numeric column (and the genres column) of the
normalized table, in terms of the de-duplicated table: the remaining pipeline
stages do not interfere with one another's columns. -/
theorem validateAndClean_getCols (t : Table) (hwf : t.WF) :
    (t.hasCol "rating" = true →
      (Table.validateAndClean t).getCol "rating"
        = imputeMedian ((dedupStep t).getCol "rating")) ∧
    (t.hasCol "vote_count" = true →
      (Table.validateAndClean t).getCol "vote_count"
        = imputeZero ((dedupStep t).getCol "vote_count")) ∧
    (t.hasCol "runtime" = true →
      (Table.validateAndClean t).getCol "runtime"
        = imputeMedian ((dedupStep t).getCol "runtime")) ∧
    (t.hasCol "release_year" = true →
      (Table.validateAndClean t).getCol "release_year"
        = yearCoerce ((dedupStep t).getCol "release_year")) ∧
    (t.hasCol "popularity" = true →
      (Table.validateAndClean t).getCol "popularity"
        = imputeZero ((dedupStep t).getCol "popularity")) ∧
    (t.hasCol "genres" = true →
      (Table.validateAndClean t).getCol "genres"
        = ((dedupStep t).getCol "genres").map cleanGenres) := by
  have hwf1 : (dedupStep t).WF := WF_dedupStep hwf
  have hwf2 : (numStep "rating" imputeMedian (dedupStep t)).WF := WF_numStep hwf1 _
  have hwf3 : (numStep "vote_count" imputeZero
      (numStep "rating" imputeMedian (dedupStep t))).WF := WF_numStep hwf2 _
  have hwf4 : (numStep "runtime" imputeMedian (numStep "vote_count" imputeZero
      (numStep "rating" imputeMedian (dedupStep t)))).WF := WF_numStep hwf3 _
  have hwf5 : (numStep "release_year" yearCoerce (numStep "runtime" imputeMedian
      (numStep "vote_count" imputeZero
        (numStep "rating" imputeMedian (dedupStep t))))).WF := WF_numStep hwf4 _
  have hwf6 : (numStep "popularity" imputeZero (numStep "release_year" yearCoerce
      (numStep "runtime" imputeMedian (numStep "vote_count" imputeZero
        (numStep "rating" imputeMedian (dedupStep t)))))).WF := WF_numStep hwf5 _
  have hwf7 : (movieIdStep (numStep "popularity" imputeZero (numStep "release_year" yearCoerce
      (numStep "runtime" imputeMedian (numStep "vote_count" imputeZero
        (numStep "rating" imputeMedian (dedupStep t))))))).WF := WF_movieIdStep hwf6
  refine ⟨?_, ?_, ?_, ?_, ?_, ?_⟩
  · intro hc
    unfold Table.validateAndClean genresStep
    rw [getCol_numStep_ne length_map_cleanGenres (by decide)]
    rw [getCol_movieIdStep_ne hwf6 (by decide)]
    rw [getCol_numStep_ne length_imputeZero (by decide)]
    rw [getCol_numStep_ne length_yearCoerce (by decide)]
    rw [getCol_numStep_ne length_imputeMedian (by decide)]
    rw [getCol_numStep_ne length_imputeZero (by decide)]
    rw [getCol_numStep_self hwf1 length_imputeMedian
      (by rw [dedupStep_hasCol]; exact hc)]
  · intro hc
    unfold Table.validateAndClean genresStep
    rw [getCol_numStep_ne length_map_cleanGenres (by decide)]
    rw [getCol_movieIdStep_ne hwf6 (by decide)]
    rw [getCol_numStep_ne length_imputeZero (by decide)]
    rw [getCol_numStep_ne length_yearCoerce (by decide)]
    rw [getCol_numStep_ne length_imputeMedian (by decide)]
    rw [getCol_numStep_self hwf2 length_imputeZero
      (by rw [numStep_hasCol, dedupStep_hasCol]; exact hc)]
    rw [getCol_numStep_ne length_imputeMedian (by decide)]
  · intro hc
    unfold Table.validateAndClean genresStep
    rw [getCol_numStep_ne length_map_cleanGenres (by decide)]
    rw [getCol_movieIdStep_ne hwf6 (by decide)]
    rw [getCol_numStep_ne length_imputeZero (by decide)]
    rw [getCol_numStep_ne length_yearCoerce (by decide)]
    rw [getCol_numStep_self hwf3 length_imputeMedian
      (by rw [numStep_hasCol, numStep_hasCol, dedupStep_hasCol]; exact hc)]
    rw [getCol_numStep_ne length_imputeZero (by decide)]
    rw [getCol_numStep_ne length_imputeMedian (by decide)]
  · intro hc
    unfold Table.validateAndClean genresStep
    rw [getCol_numStep_ne length_map_cleanGenres (by decide)]
    rw [getCol_movieIdStep_ne hwf6 (by decide)]
    rw [getCol_numStep_ne length_imputeZero (by decide)]
    rw [getCol_numStep_self hwf4 length_yearCoerce
      (by rw [numStep_hasCol, numStep_hasCol, numStep_hasCol, dedupStep_hasCol]; exact hc)]
    rw [getCol_numStep_ne length_imputeMedian (by decide)]
    rw [getCol_numStep_ne length_imputeZero (by decide)]
    rw [getCol_numStep_ne length_imputeMedian (by decide)]
  · intro hc
    unfold Table.validateAndClean genresStep
    rw [getCol_numStep_ne length_map_cleanGenres (by decide)]
    rw [getCol_movieIdStep_ne hwf6 (by decide)]
    rw [getCol_numStep_self hwf5 length_imputeZero
      (by rw [numStep_hasCol, numStep_hasCol, numStep_hasCol, numStep_hasCol,
        dedupStep_hasCol]; exact hc)]
    rw [getCol_numStep_ne length_yearCoerce (by decide)]
    rw [getCol_numStep_ne length_imputeMedian (by decide)]
    rw [getCol_numStep_ne length_imputeZero (by decide)]
    rw [getCol_numStep_ne length_imputeMedian (by decide)]
  · intro hc
    unfold Table.validateAndClean genresStep
    rw [getCol_numStep_self hwf7 length_map_cleanGenres
      ((movieIdStep_hasCol_ne _ (by decide)).mpr
        (by rw [numStep_hasCol, numStep_hasCol, numStep_hasCol, numStep_hasCol,
          numStep_hasCol, dedupStep_hasCol]; exact hc))]
    rw [getCol_movieIdStep_ne hwf6 (by decide)]
    rw [getCol_numStep_ne length_imputeZero (by decide)]
    rw [getCol_numStep_ne length_yearCoerce (by decide)]
    rw [getCol_numStep_ne length_imputeMedian (by decide)]
    rw [getCol_numStep_ne length_imputeZero (by decide)]
    rw [getCol_numStep_ne length_imputeMedian (by decide)]

/-! ## C4: imputation policy -/

theorem imputeMedian_getElem_na (vs : List Value) (i : ℕ)
    (h : (vs.map toNumericVal)[i]? = some Value.na) :
    (imputeMedian vs)[i]? = some (medValue (vs.map toNumericVal)) := by
  unfold imputeMedian
  rw [List.getElem?_map, h]
  simp

theorem imputeZero_all_zero {vs : List Value} (h : ∀ v ∈ vs, toNumericVal v = Value.na) :
    ∀ v ∈ imputeZero vs, v = Value.num 0 := by
  intro v hv
  unfold imputeZero at hv
  obtain ⟨x, hx, hfx⟩ := List.mem_map.mp hv
  obtain ⟨y, hy, hxy⟩ := List.mem_map.mp hx
  subst hxy
  rw [h y hy] at hfx
  simpa using hfx.symm

theorem yearCoerce_getElem_na (vs : List Value) (i : ℕ)
    (h : (vs.map toNumericVal)[i]? = some Value.na) :
    (yearCoerce vs)[i]? = some Value.na := by
  unfold yearCoerce
  rw [List.getElem?_map, h]
  rfl

/-- C4: the imputation policy of normalization.  Missing (including
unparseable) `rating` and `runtime` values are replaced by the column median
over the non-missing values of the same (de-duplicated) table; missing
`vote_count` and `popularity` values are replaced by zero (a column with no
parseable value at all becomes all-zero); `release_year` is numerically
coerced with no imputation — an unparseable year stays missing. -/
theorem c4_imputation_policy (t : Table) (hwf : t.WF) :
    (t.hasCol "rating" = true →
      (Table.validateAndClean t).getCol "rating"
        = imputeMedian ((dedupStep t).getCol "rating")) ∧
    (t.hasCol "rating" = true → ∀ i : ℕ,
      (((dedupStep t).getCol "rating").map toNumericVal)[i]? = some Value.na →
      ((Table.validateAndClean t).getCol "rating")[i]?
        = some (medValue (((dedupStep t).getCol "rating").map toNumericVal))) ∧
    (t.hasCol "runtime" = true →
      (Table.validateAndClean t).getCol "runtime"
        = imputeMedian ((dedupStep t).getCol "runtime")) ∧
    (t.hasCol "vote_count" = true →
      (Table.validateAndClean t).getCol "vote_count"
        = imputeZero ((dedupStep t).getCol "vote_count")) ∧
    (t.hasCol "vote_count" = true →
      (∀ v ∈ (dedupStep t).getCol "vote_count", toNumericVal v = Value.na) →
      ∀ v ∈ (Table.validateAndClean t).getCol "vote_count", v = Value.num 0) ∧
    (t.hasCol "popularity" = true →
      (Table.validateAndClean t).getCol "popularity"
        = imputeZero ((dedupStep t).getCol "popularity")) ∧
    (t.hasCol "release_year" = true →
      (Table.validateAndClean t).getCol "release_year"
        = yearCoerce ((dedupStep t).getCol "release_year")) ∧
    (t.hasCol "release_year" = true → ∀ i : ℕ,
      (((dedupStep t).getCol "release_year").map toNumericVal)[i]? = some Value.na →
      ((Table.validateAndClean t).getCol "release_year")[i]? = some Value.na) := by
  obtain ⟨hr, hv, hru, hy, hp, _⟩ := validateAndClean_getCols t hwf
  refine ⟨hr, ?_, hru, hv, ?_, hp, hy, ?_⟩
  · intro hc i hna
    rw [hr hc]
    exact imputeMedian_getElem_na _ i hna
  · intro hc hall v hmem
    rw [hv hc] at hmem
    exact imputeZero_all_zero hall v hmem
  · intro hc i hna
    rw [hy hc]
    exact yearCoerce_getElem_na _ i hna

/-- C4, witness: in a two-row table whose `rating` column is `["2", NaN]`, the
missing value is imputed with the median 2 of the parseable values. -/
theorem c4_imputation_policy_witness :
    (Table.validateAndClean ⟨["rating"], [[Value.str "2"], [Value.na]]⟩).getCol "rating"
      = [Value.num 2, Value.num 2] :=
  ((c4_imputation_policy ⟨["rating"], [[Value.str "2"], [Value.na]]⟩ (by decide)).1
      (by decide)).trans (by with_unfolding_all decide)

/-! ## C5: output value shapes -/

theorem toNumericVal_shape (v : Value) :
    (∃ q, toNumericVal v = Value.num q) ∨ toNumericVal v = Value.na := by
  cases v with
  | num q => exact Or.inl ⟨q, rfl⟩
  | na => exact Or.inr rfl
  | str s =>
      cases hp : parseRat? s with
      | none => exact Or.inr (by simp [toNumericVal, hp])
      | some q => exact Or.inl ⟨q, by simp [toNumericVal, hp]⟩

theorem medValue_shape (vs : List Value) :
    (∃ q, medValue vs = Value.num q) ∨ medValue vs = Value.na := by
  unfold medValue
  cases median (nonNullNums vs) with
  | none => exact Or.inr rfl
  | some m => exact Or.inl ⟨m, rfl⟩

theorem mem_imputeMedian_shape {vs : List Value} {v : Value} (h : v ∈ imputeMedian vs) :
    (∃ q, v = Value.num q) ∨ v = Value.na := by
  unfold imputeMedian at h
  obtain ⟨x, hx, hfx⟩ := List.mem_map.mp h
  obtain ⟨y, hy, hxy⟩ := List.mem_map.mp hx
  subst hxy
  by_cases hna : toNumericVal y = Value.na
  · rw [if_pos hna] at hfx
    rw [← hfx]
    rcases medValue_shape (vs.map toNumericVal) with ⟨q, hq⟩ | hq
    · exact Or.inl ⟨q, hq⟩
    · exact Or.inr hq
  · rw [if_neg hna] at hfx
    rw [← hfx]
    exact toNumericVal_shape y

theorem mem_imputeZero_shape {vs : List Value} {v : Value} (h : v ∈ imputeZero vs) :
    (∃ q, v = Value.num q) ∨ v = Value.na := by
  unfold imputeZero at h
  obtain ⟨x, hx, hfx⟩ := List.mem_map.mp h
  obtain ⟨y, hy, hxy⟩ := List.mem_map.mp hx
  subst hxy
  by_cases hna : toNumericVal y = Value.na
  · rw [if_pos hna] at hfx
    exact Or.inl ⟨0, hfx.symm⟩
  · rw [if_neg hna] at hfx
    rw [← hfx]
    exact toNumericVal_shape y

theorem mem_yearCoerce_shape {vs : List Value} {v : Value} (h : v ∈ yearCoerce vs) :
    ((∃ q, v = Value.num q) ∨ v = Value.na) ∧ (∀ q : ℚ, v = Value.num q → q.den = 1) := by
  unfold yearCoerce at h
  obtain ⟨x, hx, hfx⟩ := List.mem_map.mp h
  obtain ⟨y, hy, hxy⟩ := List.mem_map.mp hx
  subst hxy
  rcases toNumericVal_shape y with ⟨q, hq⟩ | hq
  · rw [hq] at hfx
    constructor
    · exact Or.inl ⟨((⌊q⌋ : ℤ) : ℚ), hfx.symm⟩
    · intro q2 hq2
      rw [hq2] at hfx
      have : ((⌊q⌋ : ℤ) : ℚ) = q2 := Value.num.inj hfx
      rw [← this]
      exact Rat.den_intCast _
  · rw [hq] at hfx
    constructor
    · exact Or.inr hfx.symm
    · intro q2 hq2
      rw [hq2] at hfx
      exact absurd hfx (by simp)

theorem cleanGenres_eq_str (v : Value) :
    cleanGenres v = Value.str (stripGenreChars (astypeStr v)) := rfl

/-- C5, amended: every numeric canonical field (`rating`, `vote_count`,
`runtime`, `popularity`, `release_year`) of the normalized output holds only
numeric or missing values, `release_year` holds only integral numbers, and
`genres`, when present, holds only text — but `runtime` and `vote_count` are
only numerically coerced, not cast to integers, so they can hold non-integral
values, and pass-through text fields are not re-coerced. -/
theorem c5_output_types (t : Table) (hwf : t.WF) :
    (∀ c ∈ (["rating", "vote_count", "runtime", "popularity", "release_year"] : List String),
      ∀ v ∈ (Table.validateAndClean t).getCol c, (∃ q, v = Value.num q) ∨ v = Value.na) ∧
    (∀ v ∈ (Table.validateAndClean t).getCol "release_year",
      ∀ q : ℚ, v = Value.num q → q.den = 1) ∧
    (t.hasCol "genres" = true →
      ∀ v ∈ (Table.validateAndClean t).getCol "genres", ∃ s, v = Value.str s) := by
  obtain ⟨hr, hv, hru, hy, hp, hg⟩ := validateAndClean_getCols t hwf
  have habsent : ∀ c : String, c ≠ "movie_id" → ¬ t.hasCol c = true →
      ∀ v ∈ (Table.validateAndClean t).getCol c, v = Value.na := by
    intro c hne hc v hv2
    apply getCol_all_na (WF_validateAndClean hwf) _ v hv2
    intro hcol
    exact hc ((validateAndClean_hasCol_ne t hne).mp hcol)
  refine ⟨?_, ?_, ?_⟩
  · intro c hcmem v hvmem
    rcases List.mem_cons.mp hcmem with hcc | hcmem
    · subst hcc
      by_cases hc : t.hasCol "rating" = true
      · rw [hr hc] at hvmem
        exact mem_imputeMedian_shape hvmem
      · exact Or.inr (habsent _ (by decide) hc v hvmem)
    rcases List.mem_cons.mp hcmem with hcc | hcmem
    · subst hcc
      by_cases hc : t.hasCol "vote_count" = true
      · rw [hv hc] at hvmem
        exact mem_imputeZero_shape hvmem
      · exact Or.inr (habsent _ (by decide) hc v hvmem)
    rcases List.mem_cons.mp hcmem with hcc | hcmem
    · subst hcc
      by_cases hc : t.hasCol "runtime" = true
      · rw [hru hc] at hvmem
        exact mem_imputeMedian_shape hvmem
      · exact Or.inr (habsent _ (by decide) hc v hvmem)
    rcases List.mem_cons.mp hcmem with hcc | hcmem
    · subst hcc
      by_cases hc : t.hasCol "popularity" = true
      · rw [hp hc] at hvmem
        exact mem_imputeZero_shape hvmem
      · exact Or.inr (habsent _ (by decide) hc v hvmem)
    rcases List.mem_cons.mp hcmem with hcc | hcmem
    · subst hcc
      by_cases hc : t.hasCol "release_year" = true
      · rw [hy hc] at hvmem
        exact (mem_yearCoerce_shape hvmem).1
      · exact Or.inr (habsent _ (by decide) hc v hvmem)
    · cases hcmem
  · intro v hvmem q hq
    by_cases hc : t.hasCol "release_year" = true
    · rw [hy hc] at hvmem
      exact (mem_yearCoerce_shape hvmem).2 q hq
    · have := habsent _ (by decide) hc v hvmem
      rw [this] at hq
      exact absurd hq (by simp)
  · intro hc v hvmem
    rw [hg hc] at hvmem
    obtain ⟨x, _, hfx⟩ := List.mem_map.mp hvmem
    exact ⟨stripGenreChars (astypeStr x), by rw [← hfx, cleanGenres_eq_str]⟩

/-- C5, witness: the normalized value of an unparseable-free runtime column is
numeric. -/
theorem c5_output_types_witness :
    (∃ q, Value.num ((21 : ℚ)/2) = Value.num q) ∨ Value.num ((21 : ℚ)/2) = Value.na :=
  (c5_output_types ⟨["runtime"], [[Value.str "10.5"]]⟩ (by decide)).1 "runtime"
    (by decide) (Value.num ((21 : ℚ)/2)) (by with_unfolding_all decide)

/-- C5, counterexample: `runtime` is declared `integer` in the schema, but the
input value `"10.5"` survives normalization as the non-integral number 21/2 —
the code never casts `runtime` (or `vote_count`) to integers. -/
theorem c5_counterexample_runtime_not_integer :
    ("runtime", FieldType.integer) ∈ STANDARD_SCHEMA ∧
    (Table.validateAndClean ⟨["runtime"], [[Value.str "10.5"]]⟩).getCol "runtime"
      = [Value.num ((21 : ℚ)/2)] ∧
    Value.hasTypeB (Value.num ((21 : ℚ)/2)) FieldType.integer = false := by
  refine ⟨by decide, ?_, ?_⟩ <;> with_unfolding_all decide

/-! ## C6: de-duplication -/

theorem dedupByKey_key_not_seen {α κ : Type} [DecidableEq κ] (key : α → κ) :
    ∀ (l : List α) (seen : List κ), ∀ a ∈ dedupByKey key l seen, key a ∉ seen := by
  intro l
  induction l with
  | nil => intro seen a ha; simp [dedupByKey] at ha
  | cons r rest ih =>
      intro seen a ha
      unfold dedupByKey at ha
      split at ha
      · exact ih seen a ha
      · rename_i hnotin
        rcases List.mem_cons.mp ha with ha | ha
        · subst ha; exact hnotin
        · intro hmem
          exact ih _ a ha (List.mem_cons_of_mem _ hmem)

theorem dedupByKey_keys_nodup {α κ : Type} [DecidableEq κ] (key : α → κ) :
    ∀ (l : List α) (seen : List κ), ((dedupByKey key l seen).map key).Nodup := by
  intro l
  induction l with
  | nil => intro seen; simp [dedupByKey]
  | cons r rest ih =>
      intro seen
      unfold dedupByKey
      split
      · exact ih seen
      · rw [List.map_cons, List.nodup_cons]
        refine ⟨?_, ih _⟩
        intro hmem
        obtain ⟨b, hb, hkb⟩ := List.mem_map.mp hmem
        apply dedupByKey_key_not_seen key rest _ b hb
        rw [hkb]
        exact List.mem_cons_self _ _

theorem dedupByKey_complete {α κ : Type} [DecidableEq κ] (key : α → κ) :
    ∀ (l : List α) (seen : List κ), ∀ a ∈ l,
      key a ∈ seen ∨ ∃ b ∈ dedupByKey key l seen, key b = key a := by
  intro l
  induction l with
  | nil => intro seen a ha; cases ha
  | cons r rest ih =>
      intro seen a ha
      unfold dedupByKey
      rcases List.mem_cons.mp ha with ha | ha
      · subst ha
        split
        · rename_i h; exact Or.inl h
        · exact Or.inr ⟨a, List.mem_cons_self _ _, rfl⟩
      · split
        · exact ih seen a ha
        · rcases ih (key r :: seen) a ha with hin | ⟨b, hb, hkb⟩
          · rcases List.mem_cons.mp hin with hin | hin
            · exact Or.inr ⟨r, List.mem_cons_self _ _, hin.symm⟩
            · exact Or.inl hin
          · exact Or.inr ⟨b, List.mem_cons_of_mem _ hb, hkb⟩

theorem dedupByKey_first {α κ : Type} [DecidableEq κ] (key : α → κ) :
    ∀ (l : List α) (seen : List κ), ∀ a ∈ dedupByKey key l seen,
      ∃ i : ℕ, l[i]? = some a ∧ ∀ j < i, ∀ b, l[j]? = some b → key b ≠ key a := by
  intro l
  induction l with
  | nil => intro seen a ha; simp [dedupByKey] at ha
  | cons r rest ih =>
      intro seen a ha
      unfold dedupByKey at ha
      split at ha
      · rename_i hseen
        obtain ⟨i, hi, hfirst⟩ := ih seen a ha
        have hknot := dedupByKey_key_not_seen key rest seen a ha
        refine ⟨i + 1, by simpa using hi, ?_⟩
        intro j hj b hb hkey
        cases j with
        | zero =>
            simp only [List.getElem?_cons_zero, Option.some.injEq] at hb
            subst hb
            apply hknot
            rw [← hkey]
            exact hseen
        | succ j2 =>
            exact hfirst j2 (by omega) b (by simpa using hb) hkey
      · rcases List.mem_cons.mp ha with ha | ha
        · subst ha
          exact ⟨0, by simp, fun j hj => (Nat.not_lt_zero j hj).elim⟩
        · obtain ⟨i, hi, hfirst⟩ := ih _ a ha
          have hknot := dedupByKey_key_not_seen key rest _ a ha
          refine ⟨i + 1, by simpa using hi, ?_⟩
          intro j hj b hb hkey
          cases j with
          | zero =>
              simp only [List.getElem?_cons_zero, Option.some.injEq] at hb
              subst hb
              apply hknot
              rw [← hkey]
              exact List.mem_cons_self _ _
          | succ j2 =>
              exact hfirst j2 (by omega) b (by simpa using hb) hkey

/-- C6: de-duplication on the `(title, release_year)` pair.  When either field
is absent nothing happens; when both are present the surviving rows are a
subsequence of the original rows (original order, no new rows), their keys are
pairwise distinct, every original key is still represented, and every
surviving row occurs at a position strictly before any other row with its key
(the first occurrence is the one kept). -/
theorem c6_dedup_title_year (t : Table) :
    ((t.hasCol "title" && t.hasCol "release_year") = false → dedupStep t = t) ∧
    (t.hasCol "title" = true → t.hasCol "release_year" = true →
      (dedupStep t).rows.Sublist t.rows ∧
      ((dedupStep t).rows.map t.rowKey).Nodup ∧
      (∀ r ∈ t.rows, ∃ r2 ∈ (dedupStep t).rows, t.rowKey r2 = t.rowKey r) ∧
      (∀ r ∈ (dedupStep t).rows, ∃ i : ℕ, t.rows[i]? = some r ∧
        ∀ j < i, ∀ r2, t.rows[j]? = some r2 → t.rowKey r2 ≠ t.rowKey r)) := by
  constructor
  · intro h
    unfold dedupStep
    rw [h]
    rfl
  · intro h1 h2
    have hcond : (t.hasCol "title" && t.hasCol "release_year") = true := by
      rw [h1, h2]; rfl
    have hrows : (dedupStep t).rows = dedupByKey t.rowKey t.rows [] := by
      unfold dedupStep
      rw [hcond]
      rfl
    rw [hrows]
    refine ⟨dedupByKey_sublist t.rowKey t.rows [], dedupByKey_keys_nodup t.rowKey t.rows [],
      ?_, dedupByKey_first t.rowKey t.rows []⟩
    intro r hr
    rcases dedupByKey_complete t.rowKey t.rows [] r hr with hin | h
    · cases hin
    · exact h

/-- C6, witness: two rows identical in `title` and `release_year` but with
different ratings are reduced to the first row. -/
theorem c6_dedup_title_year_witness :
    (dedupStep ⟨["title", "release_year", "rating"],
        [[Value.str "A", Value.str "1999", Value.num 5],
         [Value.str "A", Value.str "1999", Value.num 7]]⟩).rows
      = [[Value.str "A", Value.str "1999", Value.num 5]] ∧
    (dedupStep ⟨["title", "release_year", "rating"],
        [[Value.str "A", Value.str "1999", Value.num 5],
         [Value.str "A", Value.str "1999", Value.num 7]]⟩).rows.Sublist
      [[Value.str "A", Value.str "1999", Value.num 5],
       [Value.str "A", Value.str "1999", Value.num 7]] :=
  ⟨by with_unfolding_all decide,
   ((c6_dedup_title_year ⟨["title", "release_year", "rating"],
        [[Value.str "A", Value.str "1999", Value.num 5],
         [Value.str "A", Value.str "1999", Value.num 7]]⟩).2 (by decide) (by decide)).1⟩

/-! ## C8: resolution that finds nothing -/

theorem dictGet?_isSome_iff {m : List (String × String)} {k : String} :
    (dictGet? m k).isSome = true ↔ ∃ p ∈ m, p.1 = k := by
  induction m with
  | nil => simp [dictGet?]
  | cons p rest ih =>
      unfold dictGet?
      by_cases hp : p.1 = k
      · simp [hp]
      · rw [if_neg hp, ih]
        constructor
        · intro ⟨q, hq, hqk⟩
          exact ⟨q, List.mem_cons_of_mem p hq, hqk⟩
        · intro ⟨q, hq, hqk⟩
          rcases List.mem_cons.mp hq with hq | hq
          · subst hq; exact absurd hqk hp
          · exact ⟨q, hq, hqk⟩

theorem dictInsert_keys {m : List (String × String)} {k v : String} :
    ∀ p ∈ dictInsert m k v, p.1 = k ∨ ∃ q ∈ m, q.1 = p.1 := by
  intro p hp
  unfold dictInsert at hp
  split at hp
  · obtain ⟨q, hq, hqp⟩ := List.mem_map.mp hp
    by_cases hqk : q.1 = k
    · rw [if_pos hqk] at hqp
      rw [← hqp]
      exact Or.inl rfl
    · rw [if_neg hqk] at hqp
      subst hqp
      exact Or.inr ⟨q, hq, rfl⟩
  · rcases List.mem_append.mp hp with hp | hp
    · exact Or.inr ⟨p, hp, rfl⟩
    · rw [List.mem_singleton.mp hp]
      exact Or.inl rfl

theorem dictGet?_dictInsert_self {m : List (String × String)} {k v : String} :
    (dictGet? (dictInsert m k v) k).isSome = true := by
  rw [dictGet?_isSome_iff]
  unfold dictInsert
  split
  · rename_i hany
    unfold dictHasKey at hany
    obtain ⟨p, hp, hpk⟩ := List.any_eq_true.mp hany
    refine ⟨(k, v), List.mem_map.mpr ⟨p, hp, ?_⟩, rfl⟩
    show (if p.1 = k then (k, v) else p) = (k, v)
    rw [if_pos (by simpa using hpk)]
  · exact ⟨(k, v), List.mem_append_right m (List.mem_singleton.mpr rfl), rfl⟩

theorem dictGet?_dictInsert_mono {m : List (String × String)} {k v k2 : String}
    (h : (dictGet? m k2).isSome = true) :
    (dictGet? (dictInsert m k v) k2).isSome = true := by
  rw [dictGet?_isSome_iff] at h ⊢
  obtain ⟨p, hp, hpk⟩ := h
  unfold dictInsert
  split
  · by_cases hpk2 : p.1 = k
    · refine ⟨(k, v), List.mem_map.mpr ⟨p, hp, ?_⟩, by rw [← hpk2, hpk]⟩
      show (if p.1 = k then (k, v) else p) = (k, v)
      rw [if_pos hpk2]
    · refine ⟨p, List.mem_map.mpr ⟨p, hp, ?_⟩, hpk⟩
      show (if p.1 = k then (k, v) else p) = p
      rw [if_neg hpk2]
  · exact ⟨p, List.mem_append_left _ hp, hpk⟩

theorem buildColsLower_isSome :
    ∀ (cols : List String) (m : List (String × String)) (k : String),
      (k ∈ cols.map String.toLower ∨ (dictGet? m k).isSome = true) →
      (dictGet? (cols.foldl (fun m c => dictInsert m c.toLower c) m) k).isSome = true := by
  intro cols
  induction cols with
  | nil =>
      intro m k h
      rcases h with h | h
      · simp at h
      · exact h
  | cons c rest ih =>
      intro m k h
      rw [List.foldl_cons]
      rcases h with h | h
      · rw [List.map_cons] at h
        rcases List.mem_cons.mp h with h | h
        · subst h
          exact ih _ _ (Or.inr dictGet?_dictInsert_self)
        · exact ih _ _ (Or.inl h)
      · exact ih _ _ (Or.inr (dictGet?_dictInsert_mono h))

theorem dictInsert_ne_nil {m : List (String × String)} {k v : String} :
    dictInsert m k v ≠ [] := by
  unfold dictInsert
  split
  · rename_i hany
    unfold dictHasKey at hany
    obtain ⟨p, hp, _⟩ := List.any_eq_true.mp hany
    intro h
    rw [List.map_eq_nil_iff] at h
    rw [h] at hp
    cases hp
  · simp

theorem fuzzyFill_eq_nil {dcl : List (String × String)} {std : String} :
    ∀ {pats : List String} {m : List (String × String)},
      fuzzyFill dcl std m pats = [] → m = [] := by
  intro pats
  induction pats with
  | nil => intro m h; exact h
  | cons pat rest ih =>
      intro m h
      unfold fuzzyFill at h
      cases hd : dictGet? dcl pat.toLower with
      | none =>
          rw [hd] at h
          exact ih h
      | some actual =>
          rw [hd] at h
          simp only [] at h
          split at h
          · exact ih h
          · exact absurd h dictInsert_ne_nil

theorem foldl_eq_nil_forall {β : Type} {f : List (String × String) → β → List (String × String)}
    (hf : ∀ m x, f m x = [] → m = []) :
    ∀ (l : List β) (m : List (String × String)), l.foldl f m = [] →
      m = [] ∧ ∀ x ∈ l, f [] x = [] := by
  intro l
  induction l with
  | nil => intro m h; exact ⟨h, by simp⟩
  | cons x rest ih =>
      intro m h
      rw [List.foldl_cons] at h
      obtain ⟨hfx, hall⟩ := ih (f m x) h
      have hm : m = [] := hf m x hfx
      subst hm
      refine ⟨rfl, ?_⟩
      intro y hy
      rcases List.mem_cons.mp hy with hy | hy
      · subst hy; exact hfx
      · exact hall y hy

theorem fuzzyFill_nil_lookup {dcl : List (String × String)} {std : String} :
    ∀ {pats : List String}, fuzzyFill dcl std [] pats = [] →
      ∀ p ∈ pats, dictGet? dcl p.toLower = none := by
  intro pats
  induction pats with
  | nil => intro _ p hp; cases hp
  | cons pat rest ih =>
      intro h p hp
      unfold fuzzyFill at h
      cases hd : dictGet? dcl pat.toLower with
      | none =>
          rw [hd] at h
          rcases List.mem_cons.mp hp with hp | hp
          · subst hp; exact hd
          · exact ih h p hp
      | some actual =>
          rw [hd] at h
          have h2 : dictInsert [] actual std = [] := by simpa [dictHasKey] using h
          exact absurd h2 dictInsert_ne_nil

/-- The canonical field names all occur, in lowercase form, in their own fuzzy
pattern lists. -/
theorem schema_fields_in_patterns :
    ∀ s ∈ STANDARD_SCHEMA_FIELDS, ∃ fp ∈ FUZZY_PATTERNS, s ∈ fp.2 ∧ String.toLower s = s := by
  with_unfolding_all decide

/-- When resolution finds nothing at all, no input column is (even
case-insensitively) a canonical field name. -/
theorem getColumnMapping_empty_no_schema_col {cols : List String} {source : String}
    (h : getColumnMapping cols source = []) :
    ∀ s ∈ STANDARD_SCHEMA_FIELDS, s ∉ cols := by
  have hfma : fuzzyMatchAll cols = [] := by
    rw [getColumnMapping] at h
    split at h
    · exact h
    · rename_i hne
      exact absurd h hne
  unfold fuzzyMatchAll fuzzyPassAll at hfma
  obtain ⟨-, hall⟩ := foldl_eq_nil_forall
    (fun m fp => fuzzyFill_eq_nil) FUZZY_PATTERNS [] hfma
  intro s hs hmem
  obtain ⟨fp, hfp, hsfp, hlow⟩ := schema_fields_in_patterns s hs
  have hnone : dictGet? (buildColsLower cols) s.toLower = none :=
    fuzzyFill_nil_lookup (hall fp hfp) s hsfp
  have hsome : (dictGet? (buildColsLower cols) s.toLower).isSome = true := by
    apply buildColsLower_isSome cols [] s.toLower
    left
    rw [hlow]
    rw [← hlow]
    exact List.mem_map_of_mem _ hmem
  rw [hnone] at hsome
  cases hsome

theorem applyMapping_nil_of_no_schema (t : Table)
    (h : ∀ s ∈ STANDARD_SCHEMA_FIELDS, s ∉ t.colNames) :
    t.applyMapping [] = ⟨[], t.rows.map (fun _ => ([] : List Value))⟩ := by
  have hren : renameTable t [] = t := by
    unfold renameTable
    simp [dictGet?]
  unfold Table.applyMapping
  rw [hren]
  unfold selectSchemaCols
  have hkeep : STANDARD_SCHEMA_FIELDS.filter (fun c => t.colNames.contains c) = [] := by
    rw [List.filter_eq_nil_iff]
    intro s hs
    simp only [Bool.not_eq_true]
    rcases hcon : t.colNames.contains s with _ | _
    · rfl
    · exact absurd (hasCol_iff.mp hcon) (h s hs)
  simp only [hkeep]
  rfl

theorem zipWith_append_empty :
    ∀ (rows : List (List Value)) (vs : List Value), (∀ r ∈ rows, r = []) →
      vs.length = rows.length →
      List.zipWith (fun r v => r ++ [v]) rows vs = vs.map (fun v => [v]) := by
  intro rows
  induction rows with
  | nil =>
      intro vs _ hlen
      cases vs with
      | nil => rfl
      | cons v vt => simp at hlen
  | cons r rest ih =>
      intro vs hall hlen
      cases vs with
      | nil => simp at hlen
      | cons v vt =>
          rw [List.zipWith_cons_cons, List.map_cons]
          rw [hall r (List.mem_cons_self r rest)]
          rw [ih vt (fun x hx => hall x (List.mem_cons_of_mem r hx)) (by simpa using hlen)]
          rfl

theorem validateAndClean_no_cols (rows0 : List (List Value)) (hempty : ∀ r ∈ rows0, r = []) :
    (Table.validateAndClean ⟨[], rows0⟩).colNames = ["movie_id"] ∧
    (Table.validateAndClean ⟨[], rows0⟩).rows
      = (List.range rows0.length).map (fun i => [Value.str (movieIdStr (i + 1))]) := by
  have h1 : Table.validateAndClean ⟨[], rows0⟩
      = genresStep (Table.addCol ⟨[], rows0⟩ "movie_id" (movieIdVals rows0.length)) := rfl
  have h2 : genresStep (Table.addCol ⟨[], rows0⟩ "movie_id" (movieIdVals rows0.length))
      = Table.addCol ⟨[], rows0⟩ "movie_id" (movieIdVals rows0.length) := by
    unfold genresStep numStep
    rw [if_neg]
    intro hcol
    rw [hasCol_iff, addCol_colNames] at hcol
    simp at hcol
  rw [h1, h2]
  constructor
  · rfl
  · show List.zipWith (fun r v => r ++ [v]) rows0 (movieIdVals rows0.length) = _
    rw [zipWith_append_empty rows0 _ hempty (movieIdVals_length _)]
    unfold movieIdVals
    rw [List.map_map]
    rfl

/-- C8, amended: when resolution finds zero fields (the resolved mapping is
empty), normalization is not an error, but the result is not an empty table
either — no canonical data column from the input survives, and the output is
exactly one synthesized `movie_id` column with one identifier per input row
(an input with no rows does yield a fully empty table). -/
theorem c8_empty_mapping_result (t : Table) (source : String)
    (hempty : getColumnMapping t.colNames source = []) :
    (Table.validateAndClean (t.applyMapping [])).colNames = ["movie_id"] ∧
    (Table.validateAndClean (t.applyMapping [])).rows
      = (List.range t.rows.length).map (fun i => [Value.str (movieIdStr (i + 1))]) := by
  have hnos := getColumnMapping_empty_no_schema_col hempty
  rw [applyMapping_nil_of_no_schema t hnos]
  obtain ⟨hc, hr⟩ := validateAndClean_no_cols (t.rows.map (fun _ => ([] : List Value)))
    (by intro r hr; obtain ⟨x, _, hx⟩ := List.mem_map.mp hr; exact hx.symm)
  refine ⟨hc, ?_⟩
  rw [hr]
  rw [List.length_map]

/-- C8, witness: a one-row table with a single unrecognizable column resolves
to the empty mapping, and its normalization is the one-row `movie_id` table. -/
theorem c8_empty_mapping_result_witness :
    (Table.validateAndClean (Table.applyMapping ⟨["zzz"], [[Value.str "x"]]⟩ [])).colNames
      = ["movie_id"] ∧
    (Table.validateAndClean (Table.applyMapping ⟨["zzz"], [[Value.str "x"]]⟩ [])).rows
      = (List.range 1).map (fun i => [Value.str (movieIdStr (i + 1))]) :=
  c8_empty_mapping_result ⟨["zzz"], [[Value.str "x"]]⟩ "tmdb" (by with_unfolding_all decide)

/-- C8, counterexample: normalizing a non-empty table under the empty mapping
does not yield an empty canonical table — the output has a column and a row
(the synthesized identifier). -/
theorem c8_counterexample_not_empty :
    (Table.validateAndClean (Table.applyMapping ⟨["somecol"], [[Value.str "x"]]⟩ [])).colNames
      ≠ [] ∧
    (Table.validateAndClean (Table.applyMapping ⟨["somecol"], [[Value.str "x"]]⟩ [])).rows
      ≠ [] ∧
    (Table.validateAndClean (Table.applyMapping ⟨["somecol"], [[Value.str "x"]]⟩ [])).rows
      = [[Value.str "MOV00001"]] := by
  refine ⟨?_, ?_, ?_⟩ <;> with_unfolding_all decide

/-! ## C10: output columns are always canonical -/

theorem validateAndClean_colNames (t : Table) :
    (Table.validateAndClean t).colNames = t.colNames ∨
    (Table.validateAndClean t).colNames = t.colNames ++ ["movie_id"] := by
  unfold Table.validateAndClean genresStep
  rw [numStep_colNames]
  unfold movieIdStep
  split
  · left
    rw [numStep_colNames, numStep_colNames, numStep_colNames, numStep_colNames,
      numStep_colNames, dedupStep_colNames]
  · right
    rw [addCol_colNames]
    rw [numStep_colNames, numStep_colNames, numStep_colNames, numStep_colNames,
      numStep_colNames, dedupStep_colNames]

/-- C10: the projection step only ever emits canonical column names — for every
raw table and every mapping, custom ones included, a mapping destination that
is not one of the nine canonical fields is dropped, so the mapped table's
columns (and the columns of the fully normalized table, where only the
canonical `movie_id` can be added) are always drawn from the canonical
schema. -/
theorem c10_output_columns_canonical (t : Table) (mapping : List (String × String)) :
    (t.applyMapping mapping).colNames ⊆ STANDARD_SCHEMA_FIELDS ∧
    (∀ c, c ∉ STANDARD_SCHEMA_FIELDS → c ∉ (t.applyMapping mapping).colNames) ∧
    (Table.validateAndClean (t.applyMapping mapping)).colNames ⊆ STANDARD_SCHEMA_FIELDS := by
  have h1 : (t.applyMapping mapping).colNames
      = STANDARD_SCHEMA_FIELDS.filter
          (fun c => (renameTable t mapping).colNames.contains c) := rfl
  have hsub : (t.applyMapping mapping).colNames ⊆ STANDARD_SCHEMA_FIELDS := by
    intro c hc
    rw [h1] at hc
    exact (List.mem_filter.mp hc).1
  refine ⟨hsub, ?_, ?_⟩
  · intro c hnot hmem
    exact hnot (hsub hmem)
  · intro c hc
    rcases validateAndClean_colNames (t.applyMapping mapping) with he | he
    · rw [he] at hc
      exact hsub hc
    · rw [he] at hc
      rcases List.mem_append.mp hc with hc | hc
      · exact hsub hc
      · rw [List.mem_singleton.mp hc]
        decide

/-- C10, witness: a custom mapping sending a raw column to `title` yields an
output column that is indeed canonical. -/
theorem c10_output_columns_canonical_witness : "title" ∈ STANDARD_SCHEMA_FIELDS :=
  (c10_output_columns_canonical ⟨["a"], [[Value.str "v"]]⟩ [("a", "title")]).1
    (by with_unfolding_all decide)

/-! ## C9: the heap model never mutates the caller's frame -/

theorem hset_len (h : Heap) (j : ℕ) (t : Table) : hlen (hset h j t) = hlen h := by
  simp [hset, hlen]

theorem hget_halloc_lt {h : Heap} {t : Table} {j : ℕ} (hj : j < hlen h) :
    hget (halloc h t).1 j = hget h j := by
  unfold hget halloc
  exact List.getD_append _ _ _ _ hj

theorem hget_halloc_self (h : Heap) (t : Table) :
    hget (halloc h t).1 (halloc h t).2 = t := by
  unfold hget halloc
  rw [List.getD_eq_getElem?_getD]
  rw [List.getElem?_concat_length]
  rfl

theorem halloc_len (h : Heap) (t : Table) : hlen (halloc h t).1 = hlen h + 1 := by
  simp [halloc, hlen]

theorem halloc_ret (h : Heap) (t : Table) : (halloc h t).2 = hlen h := rfl

theorem hget_hset_self {h : Heap} {j : ℕ} (hj : j < hlen h) (t : Table) :
    hget (hset h j t) j = t := by
  unfold hget hset
  rw [List.getD_eq_getElem?_getD, List.getElem?_set_self hj]
  rfl

theorem hget_hset_ne {h : Heap} {i j : ℕ} (hij : i ≠ j) (t : Table) :
    hget (hset h j t) i = hget h i := by
  unfold hget hset
  rw [List.getD_eq_getElem?_getD, List.getD_eq_getElem?_getD,
    List.getElem?_set_ne (fun he => hij he.symm)]

theorem numStepH_len (c : String) (g : List Value → List Value) (h : Heap) (j : ℕ) :
    hlen (numStepH c g h j) = hlen h := by
  unfold numStepH
  split
  · exact hset_len h j _
  · rfl

theorem numStepH_frame {c : String} {g : List Value → List Value} {h : Heap} {j i : ℕ}
    (hij : i ≠ j) : hget (numStepH c g h j) i = hget h i := by
  unfold numStepH
  split
  · exact hget_hset_ne hij _
  · rfl

theorem numStepH_get {c : String} {g : List Value → List Value} {h : Heap} {j : ℕ}
    (hj : j < hlen h) : hget (numStepH c g h j) j = numStep c g (hget h j) := by
  unfold numStepH numStep
  split
  · rw [hget_hset_self hj]
  · rfl

theorem movieIdStepH_len (h : Heap) (j : ℕ) : hlen (movieIdStepH h j) = hlen h := by
  unfold movieIdStepH
  split
  · rfl
  · exact hset_len h j _

theorem movieIdStepH_frame {h : Heap} {j i : ℕ} (hij : i ≠ j) :
    hget (movieIdStepH h j) i = hget h i := by
  unfold movieIdStepH
  split
  · rfl
  · exact hget_hset_ne hij _

theorem movieIdStepH_get {h : Heap} {j : ℕ} (hj : j < hlen h) :
    hget (movieIdStepH h j) j = movieIdStep (hget h j) := by
  unfold movieIdStepH movieIdStep
  split
  · rfl
  · rw [hget_hset_self hj]

theorem mutTailH_len (h : Heap) (j : ℕ) : hlen (mutTailH h j) = hlen h := by
  unfold mutTailH genresStepH
  rw [numStepH_len, movieIdStepH_len, numStepH_len, numStepH_len, numStepH_len,
    numStepH_len, numStepH_len]

theorem mutTailH_frame {h : Heap} {j i : ℕ} (hij : i ≠ j) :
    hget (mutTailH h j) i = hget h i := by
  unfold mutTailH genresStepH
  rw [numStepH_frame hij, movieIdStepH_frame hij, numStepH_frame hij, numStepH_frame hij,
    numStepH_frame hij, numStepH_frame hij, numStepH_frame hij]

theorem mutTailH_get {h : Heap} {j : ℕ} (hj : j < hlen h) :
    hget (mutTailH h j) j
      = genresStep (movieIdStep (numStep "popularity" imputeZero
          (numStep "release_year" yearCoerce (numStep "runtime" imputeMedian
            (numStep "vote_count" imputeZero
              (numStep "rating" imputeMedian (hget h j))))))) := by
  unfold mutTailH genresStepH
  rw [numStepH_get (by
    rw [movieIdStepH_len, numStepH_len, numStepH_len, numStepH_len, numStepH_len,
      numStepH_len]; exact hj)]
  rw [movieIdStepH_get (by
    rw [numStepH_len, numStepH_len, numStepH_len, numStepH_len, numStepH_len]; exact hj)]
  rw [numStepH_get (by
    rw [numStepH_len, numStepH_len, numStepH_len, numStepH_len]; exact hj)]
  rw [numStepH_get (by rw [numStepH_len, numStepH_len, numStepH_len]; exact hj)]
  rw [numStepH_get (by rw [numStepH_len, numStepH_len]; exact hj)]
  rw [numStepH_get (by rw [numStepH_len]; exact hj)]
  rw [numStepH_get hj]
  rfl

theorem mutTail_on_alloc (h2 : Heap) (t2 : Table) :
    (∀ k < hlen h2, hget (mutTailH (halloc h2 t2).1 (halloc h2 t2).2) k = hget h2 k) ∧
    hget (mutTailH (halloc h2 t2).1 (halloc h2 t2).2) (halloc h2 t2).2
      = genresStep (movieIdStep (numStep "popularity" imputeZero
          (numStep "release_year" yearCoerce (numStep "runtime" imputeMedian
            (numStep "vote_count" imputeZero (numStep "rating" imputeMedian t2)))))) ∧
    hlen h2 ≤ (halloc h2 t2).2 := by
  refine ⟨?_, ?_, ?_⟩
  · intro k hk
    rw [mutTailH_frame (by rw [halloc_ret]; omega)]
    exact hget_halloc_lt hk
  · rw [mutTailH_get (by rw [halloc_ret, halloc_len]; omega)]
    rw [hget_halloc_self]
  · rw [halloc_ret]

theorem validateAndCleanH_spec (h : Heap) (i : ℕ) :
    (∀ k < hlen h, hget (validateAndCleanH h i).1 k = hget h k) ∧
    hget (validateAndCleanH h i).1 (validateAndCleanH h i).2
      = Table.validateAndClean (hget h i) ∧
    hlen h ≤ (validateAndCleanH h i).2 := by
  simp only [validateAndCleanH]
  rw [hget_halloc_self]
  by_cases hcond : ((hget h i).hasCol "title" && (hget h i).hasCol "release_year") = true
  · rw [if_pos hcond]
    obtain ⟨hf, hg, hr⟩ := mutTail_on_alloc (halloc h (hget h i)).1
      ((hget h i).dropDuplicatesTitleYear)
    refine ⟨?_, ?_, ?_⟩
    · intro k hk
      rw [hf k (by rw [halloc_len]; omega)]
      exact hget_halloc_lt hk
    · rw [hg]
      unfold Table.validateAndClean dedupStep
      rw [if_pos hcond]
    · have l1 := halloc_len h (hget h i)
      omega
  · rw [if_neg hcond]
    obtain ⟨hf, hg, hr⟩ := mutTail_on_alloc h (hget h i)
    refine ⟨hf, ?_, hr⟩
    rw [hg]
    unfold Table.validateAndClean dedupStep
    rw [if_neg hcond]

theorem applyMappingH_spec (h : Heap) (i : ℕ) (mapping : List (String × String)) :
    (∀ k < hlen h, hget (applyMappingH h i mapping).1 k = hget h k) ∧
    hget (applyMappingH h i mapping).1 (applyMappingH h i mapping).2
      = Table.applyMapping (hget h i) mapping ∧
    (applyMappingH h i mapping).2 < hlen (applyMappingH h i mapping).1 ∧
    hlen (applyMappingH h i mapping).1 = hlen h + 2 := by
  simp only [applyMappingH]
  rw [hget_halloc_self]
  refine ⟨?_, ?_, ?_, ?_⟩
  · intro k hk
    rw [hget_halloc_lt (by rw [halloc_len]; omega)]
    exact hget_halloc_lt hk
  · rw [hget_halloc_self]
    rfl
  · rw [halloc_ret]
    have l2 := halloc_len (halloc h (renameTable (hget h i) mapping)).1
      (selectSchemaCols (renameTable (hget h i) mapping))
    omega
  · have l1 := halloc_len h (renameTable (hget h i) mapping)
    have l2 := halloc_len (halloc h (renameTable (hget h i) mapping)).1
      (selectSchemaCols (renameTable (hget h i) mapping))
    omega

/-- C9: the engine never mutates the caller's table.  On the heap transcription
of `_apply_mapping` followed by `_validate_and_clean` — where renames, copies
and `drop_duplicates` allocate fresh frames while column assignments and
in-place `fillna` mutate the working frame — the caller's frame (index 0) is
unchanged at the end, the result is a different object, and the result frame
holds exactly the value of the pure mapping-plus-normalization pipeline. -/
theorem c9_no_mutation (t : Table) (source : Option String)
    (custom : Option (List (String × String))) :
    hget (loadAndMapH [t] 0 source custom).1 0 = t ∧
    (loadAndMapH [t] 0 source custom).2 ≠ 0 ∧
    hget (loadAndMapH [t] 0 source custom).1 (loadAndMapH [t] 0 source custom).2
      = Table.validateAndClean (Table.applyMapping t
          (resolveMapping t.colNames source custom)) := by
  have h0 : hget [t] 0 = t := rfl
  simp only [loadAndMapH]
  rw [h0]
  obtain ⟨haf, hag, hal1, hal2⟩ :=
    applyMappingH_spec [t] 0 (resolveMapping t.colNames source custom)
  obtain ⟨hvf, hvg, hvr⟩ := validateAndCleanH_spec
    (applyMappingH [t] 0 (resolveMapping t.colNames source custom)).1
    (applyMappingH [t] 0 (resolveMapping t.colNames source custom)).2
  have hlen1 : hlen [t] = 1 := rfl
  refine ⟨?_, ?_, ?_⟩
  · rw [hvf 0 (by rw [hal2, hlen1]; omega)]
    rw [haf 0 (by rw [hlen1]; omega)]
    exact h0
  · rw [hal2, hlen1] at hvr
    omega
  · rw [hvg, hag, h0]

end FlexibleLoader
